import Mathlib

/-!
Verification of the Sokoban solver in `src/src/lib.ts` (with the variant
implementation that appears as the second document inside `src/src/main.ts`).

The TypeScript code is shallowly embedded: JS numbers used as integers become
`Int` (coordinates) or `Nat` (dimensions, indices); the point-keyed
`Set<string>` collections (keys `"x,y"`) become lists of points with membership
as the set operation, which is faithful because the `"x,y"` keying is injective
on integer pairs (proved below as `parsePts_serialize`, which recovers the
exact point sequence from a serialized state); `async` and the two observation
hooks of `solve` (which the spec stipulates have no effect on control flow) are
dropped.
-/

namespace Sokoban

/-- A grid coordinate `(x, y)`, the source's `Point` tuple. -/
abbrev Pt := Int × Int

/-- `SokobanMap` from `src/src/lib.ts`: dimensions plus wall and goal cell
sets. -/
structure SokobanMap where
  width : Nat
  height : Nat
  wallSet : List Pt
  goalSet : List Pt
deriving DecidableEq, Repr

/-- `SokobanState` from the source: player position, box list, and the derived
box-occupancy set (kept, as in the source, as a separate collection that may
differ from the box list). -/
structure SokobanState where
  player : Pt
  boxes : List Pt
  boxSet : List Pt
deriving DecidableEq, Repr

/-- `Set.has` on a point-keyed `Set<string>`. -/
def hasPt (l : List Pt) (p : Pt) : Bool := decide (p ∈ l)

/-- The `([ax, ay], [bx, by]) => ay - by || ax - bx` comparator used by every
`boxes.sort` call in the source: ascending by `y`, then by `x`. -/
def ptLE (a b : Pt) : Bool :=
  decide (a.2 < b.2) || (decide (a.2 = b.2) && decide (a.1 ≤ b.1))

/-- `boxes.sort(([ax, ay], [bx, by]) => ay - by || ax - bx)`.  The comparator
is a total, antisymmetric order on distinct points, so every comparison sort
returns the same (unique) sorted permutation; insertion sort is used here
because it evaluates by kernel reduction. -/
def sortPts (l : List Pt) : List Pt := l.insertionSort fun a b => ptLE a b = true

/-- The guard of the first `if` in `isInvalid` (after removing the leading
negations and the `continue`): all four cells of the 2x2 window whose
lower-right corner is `(x, y)` are a wall or a box. -/
def frozenWindow (m : SokobanMap) (bs : List Pt) (x y : Int) : Bool :=
  (hasPt m.wallSet (x-1, y-1) || hasPt bs (x-1, y-1)) &&
  (hasPt m.wallSet (x, y-1) || hasPt bs (x, y-1)) &&
  (hasPt m.wallSet (x-1, y) || hasPt bs (x-1, y)) &&
  (hasPt m.wallSet (x, y) || hasPt bs (x, y))

/-- The second `if` of `isInvalid` in `src/src/lib.ts`.  The second disjunct
transcribes the source's literal `` `${1},${y - 1}` `` key: it tests the cell
`(1, y-1)`, not `(x, y-1)`. -/
def offGoalBoxLib (m : SokobanMap) (bs : List Pt) (x y : Int) : Bool :=
  (hasPt bs (x-1, y-1) && !hasPt m.goalSet (x-1, y-1)) ||
  (hasPt bs (1, y-1) && !hasPt m.goalSet (1, y-1)) ||
  (hasPt bs (x-1, y) && !hasPt m.goalSet (x-1, y)) ||
  (hasPt bs (x, y) && !hasPt m.goalSet (x, y))

/-- `isInvalid` from `src/src/lib.ts` (the deadlock pruning check): the nested
`for (y = 1; y < height; ...) for (x = 1; x < width; ...)` loops return `true`
as soon as some anchor passes both `if`s. -/
def isInvalid (m : SokobanMap) (s : SokobanState) : Bool :=
  (List.range' 1 (m.height - 1)).any fun y =>
    (List.range' 1 (m.width - 1)).any fun x =>
      frozenWindow m s.boxSet (x : Int) (y : Int) &&
        offGoalBoxLib m s.boxSet (x : Int) (y : Int)

/-- The frozen-window clause of the variant `isInvalid` (the second
implementation in the source material, inside `src/src/main.ts` after the
document separator): all four window cells wall-or-box, and at least one
box-occupied window cell off goal, with no coordinate typo. -/
def variantWindowClause (m : SokobanMap) (bs : List Pt) (x y : Int) : Bool :=
  frozenWindow m bs x y &&
  ((!hasPt m.goalSet (x-1, y-1) && hasPt bs (x-1, y-1)) ||
   (!hasPt m.goalSet (x, y-1) && hasPt bs (x, y-1)) ||
   (!hasPt m.goalSet (x-1, y) && hasPt bs (x-1, y)) ||
   (!hasPt m.goalSet (x, y) && hasPt bs (x, y)))

/-- The four corner clauses of the variant `isInvalid`: an off-goal box with
walls on two perpendicular sides. -/
def variantCornerClause (m : SokobanMap) (bs : List Pt) (x y : Int) : Bool :=
  (hasPt bs (x-1, y-1) && !hasPt m.goalSet (x-1, y-1) &&
    hasPt m.wallSet (x, y-1) && hasPt m.wallSet (x-1, y)) ||
  (hasPt bs (x, y-1) && !hasPt m.goalSet (x, y-1) &&
    hasPt m.wallSet (x-1, y-1) && hasPt m.wallSet (x, y)) ||
  (hasPt bs (x-1, y) && !hasPt m.goalSet (x-1, y) &&
    hasPt m.wallSet (x, y) && hasPt m.wallSet (x-1, y-1)) ||
  (hasPt bs (x, y) && !hasPt m.goalSet (x, y) &&
    hasPt m.wallSet (x-1, y) && hasPt m.wallSet (x, y-1))

/-- The variant `isInvalid` of the second document in `src/src/main.ts`:
frozen-window clause (correct coordinates) or any of four corner clauses. -/
def isInvalidVariant (m : SokobanMap) (s : SokobanState) : Bool :=
  (List.range' 1 (m.height - 1)).any fun y =>
    (List.range' 1 (m.width - 1)).any fun x =>
      variantWindowClause m s.boxSet (x : Int) (y : Int) ||
        variantCornerClause m s.boxSet (x : Int) (y : Int)

/-- `nextState` from `src/src/lib.ts`.  Note that only the plain-move branch
consults `isInvalid`; the push branch returns the new state unchecked. -/
def nextState (m : SokobanMap) (s : SokobanState) (d : Pt) : Option SokobanState :=
  let nextX := s.player.1 + d.1
  let nextY := s.player.2 + d.2
  if decide (nextX < 0) || decide ((m.width : Int) ≤ nextX) ||
      decide (nextY < 0) || decide ((m.height : Int) ≤ nextY) then none
  else if hasPt m.wallSet (nextX, nextY) then none
  else if hasPt s.boxSet (nextX, nextY) then
    let nextBoxX := nextX + d.1
    let nextBoxY := nextY + d.2
    if hasPt m.wallSet (nextBoxX, nextBoxY) then none
    else if hasPt s.boxSet (nextBoxX, nextBoxY) then none
    else
      let newBoxes :=
        sortPts ((s.boxes.filter fun q => decide (q ≠ (nextX, nextY))) ++
          [(nextBoxX, nextBoxY)])
      some ⟨(nextX, nextY), newBoxes, newBoxes⟩
  else
    let result : SokobanState := ⟨(nextX, nextY), s.boxes, s.boxSet⟩
    if isInvalid m result then none else some result

/-- `isComplete` from the source: every box position is a goal cell. -/
def isComplete (m : SokobanMap) (s : SokobanState) : Bool :=
  s.boxes.all fun p => hasPt m.goalSet p

/-- JS `String.prototype.split` with a one-character separator, char-wise
(the split of the character sequence at every separator occurrence). -/
def splitStr (sep : Char) (s : String) : List String :=
  (s.data.splitOn sep).map String.mk

/-- JS `String.prototype.trim`: drop whitespace from both ends. -/
def trimChars (cs : List Char) : List Char :=
  ((cs.dropWhile Char.isWhitespace).reverse.dropWhile Char.isWhitespace).reverse

/-- JS `trim` on a string. -/
def trimStr (s : String) : String := ⟨trimChars s.data⟩

/-- The rows pipeline of `parseSokoban`: split into lines, trim each line,
drop blank lines.  The source splits on the regex `/\r*\n/`; splitting on
`'\n'` alone is equivalent because `trim` removes the adjoining `'\r'` runs. -/
def rowsOf (input : String) : List String :=
  ((splitStr '\n' input).map trimStr).filter fun r => decide (r ≠ "")

/-- Accumulator of the parser's scanning loop. -/
structure ScanAcc where
  walls : List Pt
  goals : List Pt
  player : Option Pt
  boxes : List Pt
deriving DecidableEq, Repr

/-- One character through both `switch` statements of the scanning loop:
`none` when the character falls to the first switch's `default` (it is outside
the 7-symbol vocabulary), otherwise the accumulator extended as the two
switches prescribe (a later player tile overwrites an earlier one). -/
def scanChar (acc : ScanAcc) (x y : Int) (c : Char) : Option ScanAcc :=
  if c = '.' then some acc
  else if c = '#' then some { acc with walls := acc.walls ++ [(x, y)] }
  else if c = '+' then some { acc with goals := acc.goals ++ [(x, y)] }
  else if c = 'w' then some { acc with player := some (x, y) }
  else if c = 'W' then
    some { acc with goals := acc.goals ++ [(x, y)], player := some (x, y) }
  else if c = 'b' then some { acc with boxes := acc.boxes ++ [(x, y)] }
  else if c = 'B' then
    some { acc with goals := acc.goals ++ [(x, y)], boxes := acc.boxes ++ [(x, y)] }
  else none

/-- The inner (`x`) scanning loop over one row. -/
def scanRow (y : Int) : Int → List Char → ScanAcc → Option ScanAcc
  | _, [], acc => some acc
  | x, c :: cs, acc =>
    match scanChar acc x y c with
    | none => none
    | some acc2 => scanRow y (x + 1) cs acc2

/-- The outer (`y`) scanning loop over all rows. -/
def scanRows : Int → List (List Char) → ScanAcc → Option ScanAcc
  | _, [], acc => some acc
  | y, r :: rs, acc =>
    match scanRow y 0 r acc with
    | none => none
    | some acc2 => scanRows (y + 1) rs acc2

/-- The in-grid cells, row-major. -/
def gridCells (w h : Nat) : List Pt :=
  (List.range h).flatMap fun y => (List.range w).map fun x => ((x : Int), (y : Int))

/-- The 4-neighbourhood of a cell. -/
def nbrs (p : Pt) : List Pt :=
  [(p.1 - 1, p.2), (p.1 + 1, p.2), (p.1, p.2 - 1), (p.1, p.2 + 1)]

/-- One saturation round of the reachability computation: add every in-grid
non-wall cell adjacent to an already-reached cell. -/
def floodStep (w h : Nat) (walls : List Pt) (reached : List Pt) : List Pt :=
  reached ++ ((gridCells w h).filter fun p =>
    !hasPt walls p && !hasPt reached p && (nbrs p).any fun q => hasPt reached q)

/-- The reachable-cell set of the parser's recursive `floodFill`, modelled as
`w*h`-fold saturation of the same 4-neighbour expansion (both compute the
connected component of the start cell through in-grid non-wall cells, and a
component has at most `w*h` cells, so `w*h` rounds saturate). -/
def floodReach (w h : Nat) (walls : List Pt) (start : Pt) : List Pt :=
  if hasPt walls start then [] else (floodStep w h walls)^[w * h] [start]

/-- `parseSokoban` from `src/src/lib.ts`.  As in the source, the box set is
built from the scan-order box list and the box list is then sorted. -/
def parseSokoban (input : String) : Option (SokobanMap × SokobanState) :=
  let rows := rowsOf input
  if rows.isEmpty then none
  else
    let width := (rows.headD "").length
    if rows.any fun r => decide (r.length ≠ width) then none
    else
      match scanRows 0 (rows.map String.data) ⟨[], [], none, []⟩ with
      | none => none
      | some acc =>
        match acc.player with
        | none => none
        | some player =>
          let reach := floodReach width rows.length acc.walls player
          if acc.boxes.any fun p => !hasPt reach p then none
          else if acc.goals.any fun p => !hasPt reach p then none
          else
            some (⟨width, rows.length, acc.walls, acc.goals⟩,
                  ⟨player, sortPts acc.boxes, acc.boxes⟩)

/-- The information content of a `serialize` string: the player point followed
by the box points in list order (`boxSet` does not enter the key).
`parsePts_serialize` below proves this is exactly what the string encodes. -/
abbrev Key := Pt × List Pt

/-- The key a state is filed under in the visited index. -/
def serializeK (s : SokobanState) : Key := (s.player, s.boxes)

/-- The state `deserialize` rebuilds from a key: boxes re-sorted, box set
rebuilt from the sorted boxes. -/
def deserializeK (k : Key) : SokobanState := ⟨k.1, sortPts k.2, sortPts k.2⟩

/-- The four directions with their move codes, in the fixed up, left, down,
right order in which `solve` tries them. -/
def dirs : List (Pt × String) := [((0, -1), "W"), ((-1, 0), "A"), ((0, 1), "S"), ((1, 0), "D")]

/-- The visited index: serialized state to the path that first reached it. -/
abbrev Visited := List (Key × String)

/-- `Map.get` on the visited index. -/
def lookupV (v : Visited) (k : Key) : Option String :=
  (v.find? fun e => decide (e.1 = k)).map fun e => e.2

/-- One search transition at the key level: `nextState` on the deserialized
state, reserialized. -/
def kstep (m : SokobanMap) (k : Key) (d : Pt) : Option Key :=
  (nextState m (deserializeK k) d).map serializeK

/-- One of the four per-direction blocks in `solve`'s layer loop: compute the
successor, skip it when illegal or already visited, return the extended path
when it is complete, otherwise record it in the visited index and the next
frontier. -/
def expandDir (m : SokobanMap) (st : SokobanState) (path : String)
    (acc : Visited × List Key) (dc : Pt × String) : Sum String (Visited × List Key) :=
  match nextState m st dc.1 with
  | none => Sum.inr acc
  | some w =>
    if (lookupV acc.1 (serializeK w)).isSome then Sum.inr acc
    else if isComplete m w then Sum.inl (path ++ dc.2)
    else Sum.inr (acc.1 ++ [(serializeK w, path ++ dc.2)], acc.2 ++ [serializeK w])

/-- The four per-direction blocks in order. -/
def expandDirs (m : SokobanMap) (st : SokobanState) (path : String) :
    Visited × List Key → List (Pt × String) → Sum String (Visited × List Key)
  | acc, [] => Sum.inr acc
  | acc, dc :: rest =>
    match expandDir m st path acc dc with
    | Sum.inl s => Sum.inl s
    | Sum.inr acc2 => expandDirs m st path acc2 rest

/-- The `for (const serializedState of current)` loop of one BFS layer. -/
def processLayer (m : SokobanMap) :
    Visited × List Key → List Key → Sum String (Visited × List Key)
  | acc, [] => Sum.inr acc
  | acc, k :: rest =>
    match expandDirs m (deserializeK k) ((lookupV acc.1 k).getD "") acc dirs with
    | Sum.inl s => Sum.inl s
    | Sum.inr acc2 => processLayer m acc2 rest

/-- The `while (current.length)` loop of `solve`, indexed by fuel; `none`
means the fuel ran out (proved unreachable for `solveFuel`). -/
def bfsLoop (m : SokobanMap) : Nat → Visited → List Key → Option (Option String)
  | 0, _, _ => none
  | fuel + 1, visited, current =>
    if current.isEmpty then some none
    else
      match processLayer m (visited, []) current with
      | Sum.inl s => some (some s)
      | Sum.inr (v2, next) => bfsLoop m fuel v2 next

/-- All lists over `s` of length at most `n`: the finite universe the search
keys live in, used to size the fuel of `bfsLoop`. -/
def allLists : Nat → Finset Pt → Finset (List Pt)
  | 0, _ => {[]}
  | n + 1, s => {[]} ∪ s.biUnion fun a => (allLists n s).image fun l => a :: l

/-- The in-grid cells as a finite set. -/
def gridFin (m : SokobanMap) : Finset Pt :=
  Finset.Ico (0 : Int) (m.width : Int) ×ˢ Finset.Ico (0 : Int) (m.height : Int)

/-- The grid extended one cell outward: boxes can be pushed at most one cell
past the boundary (the pusher itself is bounds-checked). -/
def extFin (m : SokobanMap) : Finset Pt :=
  Finset.Ico (-1 : Int) ((m.width : Int) + 1) ×ˢ Finset.Ico (-1 : Int) ((m.height : Int) + 1)

/-- Every key the search starting from `k` can ever file in the visited
index. -/
def keyUniv (m : SokobanMap) (k : Key) : Finset Key :=
  (insert k.1 (gridFin m)) ×ˢ allLists k.2.length (extFin m ∪ k.2.toFinset)

/-- Fuel that `bfsLoop` is proved never to exhaust: the visited index grows by
at least one fresh `keyUniv` key per layer. -/
def solveFuel (m : SokobanMap) (k : Key) : Nat := (keyUniv m k).card + 2

/-- `solve` from `src/src/lib.ts`, with the `onStep`/`onDistance` observation
hooks dropped (they do not influence control flow).  The source's `while` loop
always terminates because the visited index grows inside a finite key
universe; `bfsLoop` makes this explicit with fuel that `bfsLoop_ne_none`
proves sufficient, so the `getD` default is never taken. -/
def solve (m : SokobanMap) (init : SokobanState) : Option String :=
  (bfsLoop m (solveFuel m (serializeK init)) [(serializeK init, "")] [serializeK init]).getD none

/-- Move decoding for replaying a solution string: the four codes to their
displacements (other characters never occur in paths; they default to up). -/
def charDir (c : Char) : Pt :=
  if c = 'A' then (-1, 0)
  else if c = 'S' then (0, 1)
  else if c = 'D' then (1, 0)
  else (0, -1)

/-- Replaying a sequence of move codes from a state with `nextState`. -/
def replay (m : SokobanMap) : SokobanState → List Char → Option SokobanState
  | s, [] => some s
  | s, c :: cs =>
    match nextState m s (charDir c) with
    | none => none
    | some t => replay m t cs

/-- Replay at the key level (the form the search actually explores). -/
def kpath (m : SokobanMap) : Key → List Char → Option Key
  | k, [] => some k
  | k, c :: cs =>
    match kstep m k (charDir c) with
    | none => none
    | some k2 => kpath m k2 cs

/-- Completion at the key level. -/
def kcomplete (m : SokobanMap) (k : Key) : Bool := isComplete m (deserializeK k)

/-- Decimal digit accumulation, as in JS number parsing. -/
def digitsVal (cs : List Char) : Nat := cs.foldl (fun n c => n * 10 + (c.toNat - 48)) 0

/-- Decimal digit accumulation from a running value. -/
def valFrom (a : Nat) (cs : List Char) : Nat :=
  cs.foldl (fun n c => n * 10 + (c.toNat - 48)) a

/-- JS `parseInt` restricted to what reaches it here: an optional minus sign
followed by the longest decimal digit run (`0` stands in for JS `NaN`, which
cannot arise on canonically serialized input). -/
def parseIntJS (s : String) : Int :=
  match s.data with
  | [] => 0
  | c :: cs =>
    if c = '-' then -(digitsVal (cs.takeWhile Char.isDigit) : Int)
    else (digitsVal ((c :: cs).takeWhile Char.isDigit) : Int)

/-- The `` `${x},${y}` `` key of a point. -/
def ptStr (p : Pt) : String := toString p.1 ++ "," ++ toString p.2

/-- `serialize` from `solve`: player then boxes, `"x,y"` points joined by
`"/"`. -/
def serialize (s : SokobanState) : String :=
  String.intercalate "/" ((s.player :: s.boxes).map ptStr)

/-- Decoding one `"x,y"` point. -/
def parsePt (s : String) : Pt :=
  let tmp := splitStr ',' s
  (parseIntJS (tmp.headD ""), parseIntJS ((tmp.drop 1).headD ""))

/-- The point sequence a serialized state decodes to (`deserialize` before its
re-sort). -/
def parsePts (s : String) : List Pt :=
  (splitStr '/' s).map parsePt

/-- `deserialize` from `solve`: split, parse the points, re-sort the boxes,
rebuild the box set (the empty case is unreachable: a split never yields an
empty list). -/
def deserialize (input : String) : SokobanState :=
  match parsePts input with
  | [] => ⟨(0, 0), [], []⟩
  | player :: boxes => ⟨player, sortPts boxes, sortPts boxes⟩

/-! ### Definitions used to state and prove the claims -/

/-- The box set agrees (as a set) with the box list, as it does in every
parser- or search-produced state. -/
def coherent (s : SokobanState) : Prop := ∀ p, p ∈ s.boxSet ↔ p ∈ s.boxes

/-- Two states carrying the same information up to box order and box-set
representation; `nextState` respects this relation (`nextState_equiv`). -/
def SEquiv (s t : SokobanState) : Prop :=
  s.player = t.player ∧ s.boxes.Perm t.boxes ∧ (∀ p, p ∈ s.boxSet ↔ p ∈ t.boxSet)

/-- Lifting a relation to `Option`. -/
def optRel (r : α → β → Prop) : Option α → Option β → Prop
  | none, none => True
  | some a, some b => r a b
  | _, _ => False

/-- The four cells of the 2x2 window whose lower-right corner is `(x, y)`. -/
def windowCells (x y : Int) : List Pt := [(x-1, y-1), (x, y-1), (x-1, y), (x, y)]

/-- The deadlock condition exactly as the spec words it (§4.4, claim C2): some
2x2 window all of whose four cells are a wall or a box-occupied cell, with at
least one of the window's box-occupied cells not a goal cell. -/
def specWindowDeadlock (m : SokobanMap) (s : SokobanState) : Prop :=
  ∃ y ∈ Finset.Ico (1 : Int) (m.height : Int),
    ∃ x ∈ Finset.Ico (1 : Int) (m.width : Int),
      (∀ p ∈ windowCells x y, p ∈ m.wallSet ∨ p ∈ s.boxSet) ∧
      (∃ p ∈ windowCells x y, p ∈ s.boxSet ∧ p ∉ m.goalSet)

/-- A raw move in the sense of claim C3 (a player step or a legal push with
the pruning ignored): `nextState` without the deadlock rejection. -/
def rawNext (m : SokobanMap) (s : SokobanState) (d : Pt) : Option SokobanState :=
  let nextX := s.player.1 + d.1
  let nextY := s.player.2 + d.2
  if decide (nextX < 0) || decide ((m.width : Int) ≤ nextX) ||
      decide (nextY < 0) || decide ((m.height : Int) ≤ nextY) then none
  else if hasPt m.wallSet (nextX, nextY) then none
  else if hasPt s.boxSet (nextX, nextY) then
    let nextBoxX := nextX + d.1
    let nextBoxY := nextY + d.2
    if hasPt m.wallSet (nextBoxX, nextBoxY) then none
    else if hasPt s.boxSet (nextBoxX, nextBoxY) then none
    else
      let newBoxes :=
        sortPts ((s.boxes.filter fun q => decide (q ≠ (nextX, nextY))) ++
          [(nextBoxX, nextBoxY)])
      some ⟨(nextX, nextY), newBoxes, newBoxes⟩
  else some ⟨(nextX, nextY), s.boxes, s.boxSet⟩

/-- A legal plain player step for claim C9: target in bounds and not a wall
(with no boxes on the board, these are the only `nextState` conditions). -/
def legalStep (m : SokobanMap) (pl : Pt) (d : Pt) : Bool :=
  !(decide (pl.1 + d.1 < 0) || decide ((m.width : Int) ≤ pl.1 + d.1) ||
    decide (pl.2 + d.2 < 0) || decide ((m.height : Int) ≤ pl.2 + d.2)) &&
  !hasPt m.wallSet (pl.1 + d.1, pl.2 + d.2)

/-- The code of the first legal player move in the fixed W, A, S, D order. -/
def firstLegalCode (m : SokobanMap) (pl : Pt) : Option String :=
  (dirs.find? fun dc => legalStep m pl dc.1).map fun dc => dc.2

/-- Map exploiting the `isInvalid` typo: an all-wall 2x2 block at
`(3..4, 1..2)` and a goal at `(1, 2)`. -/
def mTypo : SokobanMap := ⟨5, 4, [(3, 1), (4, 1), (3, 2), (4, 2)], [(1, 2)]⟩

/-- A solvable state on `mTypo`: the box at `(1, 1)` is one push from the
goal, yet the typo branch (`x` read as the literal `1`) flags the state. -/
def sTypo : SokobanState := ⟨(1, 0), [(1, 1)], [(1, 1)]⟩

/-- The state after pushing the `sTypo` box down onto the goal. -/
def tTypo : SokobanState := ⟨(1, 1), [(1, 2)], [(1, 2)]⟩

/-- Map with a wall corner right and below cell `(1, 1)`. -/
def mCorner : SokobanMap := ⟨4, 4, [(2, 1), (1, 2)], []⟩

/-- A corner-deadlocked box at `(1, 1)`: flagged by the variant `isInvalid`
(corner clause) but not by the `src/src/lib.ts` one (no full 2x2 window). -/
def sCorner : SokobanState := ⟨(0, 0), [(1, 1)], [(1, 1)]⟩

/-- Open 6x6 map with no goals. -/
def mPush : SokobanMap := ⟨6, 6, [], []⟩

/-- Pushing the box at `(3, 3)` up completes an off-goal 2x2 box block: the
resulting state is flagged by `isInvalid`, yet `nextState` returns it because
the push branch never consults the detector. -/
def sPush : SokobanState :=
  ⟨(3, 4), [(2, 1), (3, 1), (2, 2), (3, 3)], [(2, 1), (3, 1), (2, 2), (3, 3)]⟩

/-- The deadlocked state `nextState mPush sPush (0, -1)` returns. -/
def tPush : SokobanState :=
  ⟨(3, 3), [(2, 1), (3, 1), (2, 2), (3, 2)], [(2, 1), (3, 1), (2, 2), (3, 2)]⟩

/-- A state with unsorted boxes for exercising the serialization round
trip. -/
def sRound : SokobanState := ⟨(1, 2), [(3, 4), (0, 1)], [(0, 1), (3, 4)]⟩

/-- The trivial solvable puzzle `"#####\n#wb+#\n#####"`: player at `(1, 1)`,
box at `(2, 1)`, goal at `(3, 1)`; one push right solves it. -/
def mSolv : SokobanMap :=
  ⟨5, 3, [(0, 0), (1, 0), (2, 0), (3, 0), (4, 0), (0, 1), (4, 1),
    (0, 2), (1, 2), (2, 2), (3, 2), (4, 2)], [(3, 1)]⟩

/-- The initial state of the trivial solvable puzzle. -/
def sSolv : SokobanState := ⟨(1, 1), [(2, 1)], [(2, 1)]⟩

/-- The 3x3 all-wall border grid with the player walled in and no boxes:
`parseSokoban "###\n#w#\n###"` yields it. -/
def mWalled : SokobanMap :=
  ⟨3, 3, [(0, 0), (1, 0), (2, 0), (0, 1), (2, 1), (0, 2), (1, 2), (2, 2)], []⟩

/-- The initial state of the walled-in puzzle: already complete (no boxes),
but `solve` never tests the untouched initial state. -/
def sWalled : SokobanState := ⟨(1, 1), [], []⟩

/-- The 7-symbol tile vocabulary: floor, wall, goal, box, box-on-goal,
player, player-on-goal. -/
def vocab : List Char := ['.', '#', '+', 'b', 'B', 'w', 'W']

/-- Wall tile. -/
def isWallChar (c : Char) : Bool := c == '#'

/-- Tiles on a goal cell. -/
def isGoalChar (c : Char) : Bool := c == '+' || c == 'B' || c == 'W'

/-- Tiles holding a box. -/
def isBoxChar (c : Char) : Bool := c == 'b' || c == 'B'

/-- Tiles holding the player. -/
def isPlayerChar (c : Char) : Bool := c == 'w' || c == 'W'

/-- The positions of the characters of one row satisfying `pred`, left to
right starting at column `x`. -/
def rowCells (pred : Char → Bool) (y : Int) : Int → List Char → List Pt
  | _, [] => []
  | x, c :: cs => (if pred c then [(x, y)] else []) ++ rowCells pred y (x + 1) cs

/-- The row-major positions of the grid characters satisfying `pred`,
starting at row `y`. -/
def gridCellsWith (pred : Char → Bool) : Int → List (List Char) → List Pt
  | _, [] => []
  | y, r :: rs => rowCells pred y 0 r ++ gridCellsWith pred (y + 1) rs

/-- The last element of `l`, or `o` when `l` is empty (how a scan that
overwrites on every hit ends up). -/
def lastOr (l : List Pt) (o : Option Pt) : Option Pt := l.foldl (fun _ p => some p) o

instance : IsTrans Pt fun a b => ptLE a b = true := by
  constructor
  intro a b c hab hbc
  simp only [ptLE, Bool.or_eq_true, Bool.and_eq_true, decide_eq_true_eq] at hab hbc ⊢
  omega

instance : IsTotal Pt fun a b => ptLE a b = true := by
  constructor
  intro a b
  simp only [ptLE, Bool.or_eq_true, Bool.and_eq_true, decide_eq_true_eq]
  omega

instance (m : SokobanMap) (s : SokobanState) : Decidable (specWindowDeadlock m s) := by
  unfold specWindowDeadlock; infer_instance

/-- Invariant of the visited index and the next frontier while a BFS layer at
distance `i` is being expanded. -/
structure VisInv (m : SokobanMap) (k0 : Key) (visited : Visited) (next : List Key)
    (i : Nat) : Prop where
  univ : ∀ e ∈ visited, e.1 ∈ keyUniv m k0
  nodup : (visited.map Prod.fst).Nodup
  init_mem : (k0, "") ∈ visited
  path_ok : ∀ e ∈ visited, kpath m k0 e.2.data = some e.1
  not_complete : ∀ e ∈ visited, kcomplete m e.1 = false
  len_le : ∀ e ∈ visited, e.2.length ≤ i + 1
  next_sub : ∀ k ∈ next, ∃ p, (k, p) ∈ visited ∧ p.length = i + 1
  next_layer : ∀ e ∈ visited, e.2.length = i + 1 → e.1 ∈ next
  next_nodup : next.Nodup

/-- Invariant of one BFS layer expansion: `rest` is the unprocessed suffix of
the layer-`i` frontier, and every visited entry not awaiting processing has
all its successors recorded. -/
structure LayerInv (m : SokobanMap) (k0 : Key) (visited : Visited) (next : List Key)
    (rest : List Key) (i : Nat) : Prop where
  vis : VisInv m k0 visited next i
  rest_sub : ∀ k ∈ rest, ∃ p, (k, p) ∈ visited ∧ p.length = i
  rest_nodup : rest.Nodup
  closed : ∀ e ∈ visited, (e.2.length < i ∨ (e.2.length = i ∧ e.1 ∉ rest)) →
    ∀ dc ∈ dirs, ∀ k2, kstep m e.1 dc.1 = some k2 →
      ∃ p2, (k2, p2) ∈ visited ∧ p2.length ≤ e.2.length + 1

/-- Invariant between BFS layers: `current` is exactly the layer-`i`
frontier. -/
structure BfsInv (m : SokobanMap) (k0 : Key) (visited : Visited) (current : List Key)
    (i : Nat) : Prop where
  univ : ∀ e ∈ visited, e.1 ∈ keyUniv m k0
  nodup : (visited.map Prod.fst).Nodup
  init_mem : (k0, "") ∈ visited
  path_ok : ∀ e ∈ visited, kpath m k0 e.2.data = some e.1
  not_complete : ∀ e ∈ visited, kcomplete m e.1 = false
  len_le : ∀ e ∈ visited, e.2.length ≤ i
  layer : ∀ e ∈ visited, e.2.length = i → e.1 ∈ current
  cur_sub : ∀ k ∈ current, ∃ p, (k, p) ∈ visited ∧ p.length = i
  cur_nodup : current.Nodup
  closed : ∀ e ∈ visited, e.2.length < i →
    ∀ dc ∈ dirs, ∀ k2, kstep m e.1 dc.1 = some k2 →
      ∃ p2, (k2, p2) ∈ visited ∧ p2.length ≤ e.2.length + 1

/-! ### Basic lemmas -/

theorem hasPt_iff {l : List Pt} {p : Pt} : hasPt l p = true ↔ p ∈ l := by
  simp [hasPt]

theorem hasPt_congr {l₁ l₂ : List Pt} (h : ∀ p, p ∈ l₁ ↔ p ∈ l₂) (q : Pt) :
    hasPt l₁ q = hasPt l₂ q :=
  decide_eq_decide.mpr (h q)

theorem sortPts_perm (l : List Pt) : (sortPts l).Perm l := List.perm_insertionSort _ l

theorem mem_sortPts {p : Pt} {l : List Pt} : p ∈ sortPts l ↔ p ∈ l :=
  (sortPts_perm l).mem_iff

theorem isInvalid_congr {m : SokobanMap} {s t : SokobanState}
    (h : ∀ p, p ∈ s.boxSet ↔ p ∈ t.boxSet) : isInvalid m s = isInvalid m t := by
  have hb : ∀ q, hasPt s.boxSet q = hasPt t.boxSet q := hasPt_congr h
  simp only [isInvalid, frozenWindow, offGoalBoxLib, hb]

theorem isComplete_congr {m : SokobanMap} {s t : SokobanState}
    (h : s.boxes.Perm t.boxes) : isComplete m s = isComplete m t := by
  apply Bool.eq_iff_iff.mpr
  simp only [isComplete, List.all_eq_true]
  exact ⟨fun H p hp => H p (h.mem_iff.mpr hp), fun H p hp => H p (h.mem_iff.mp hp)⟩

theorem ptLE_trans (a b c : Pt) (hab : ptLE a b = true) (hbc : ptLE b c = true) :
    ptLE a c = true := by
  simp only [ptLE, Bool.or_eq_true, Bool.and_eq_true, decide_eq_true_eq] at hab hbc ⊢
  omega

theorem ptLE_total (a b : Pt) : (ptLE a b || ptLE b a) = true := by
  simp only [ptLE, Bool.or_eq_true, Bool.and_eq_true, decide_eq_true_eq]
  omega

theorem sequiv_refl (s : SokobanState) : SEquiv s s :=
  ⟨rfl, List.Perm.refl _, fun _ => Iff.rfl⟩

theorem sequiv_symm {s t : SokobanState} (h : SEquiv s t) : SEquiv t s :=
  ⟨h.1.symm, h.2.1.symm, fun p => (h.2.2 p).symm⟩

theorem sequiv_trans {s t u : SokobanState} (h1 : SEquiv s t) (h2 : SEquiv t u) :
    SEquiv s u :=
  ⟨h1.1.trans h2.1, h1.2.1.trans h2.2.1, fun p => (h1.2.2 p).trans (h2.2.2 p)⟩

/-! ### Parser lemmas -/

theorem lastOr_append (l1 l2 : List Pt) (o : Option Pt) :
    lastOr (l1 ++ l2) o = lastOr l2 (lastOr l1 o) := List.foldl_append _ _ _ _

theorem lastOr_some_ne_none (l : List Pt) (p : Pt) : lastOr l (some p) ≠ none := by
  induction l generalizing p with
  | nil => simp [lastOr]
  | cons a l ih => simpa [lastOr] using ih a

theorem lastOr_eq_none {l : List Pt} {o : Option Pt} :
    lastOr l o = none ↔ l = [] ∧ o = none := by
  cases l with
  | nil => simp [lastOr]
  | cons a l => simpa [lastOr] using lastOr_some_ne_none l a

theorem scanChar_none_iff (acc : ScanAcc) (x y : Int) (c : Char) :
    scanChar acc x y c = none ↔ c ∉ vocab := by
  by_cases hv : c ∈ vocab
  · fin_cases hv <;> simp [scanChar, vocab]
  · have hv' : c ≠ '.' ∧ c ≠ '#' ∧ c ≠ '+' ∧ c ≠ 'b' ∧ c ≠ 'B' ∧ c ≠ 'w' ∧ c ≠ 'W' := by
      simp only [vocab, List.mem_cons, List.not_mem_nil, or_false, not_or] at hv
      tauto
    simp [scanChar, hv'.1, hv'.2.1, hv'.2.2.1, hv'.2.2.2.1, hv'.2.2.2.2.1,
      hv'.2.2.2.2.2.1, hv'.2.2.2.2.2.2, hv]

theorem scanRow_acc (y : Int) (cs : List Char) : ∀ (x : Int) (acc acc2 : ScanAcc),
    scanRow y x cs acc = some acc2 →
    acc2.walls = acc.walls ++ rowCells isWallChar y x cs ∧
    acc2.goals = acc.goals ++ rowCells isGoalChar y x cs ∧
    acc2.boxes = acc.boxes ++ rowCells isBoxChar y x cs ∧
    acc2.player = lastOr (rowCells isPlayerChar y x cs) acc.player := by
  induction cs with
  | nil =>
    intro x acc acc2 h
    simp only [scanRow] at h
    injection h with h2
    subst h2
    simp [rowCells, lastOr]
  | cons c cs ih =>
    intro x acc acc2 h
    by_cases hv : c ∈ vocab
    · fin_cases hv <;>
        (simp only [scanRow, scanChar, reduceIte] at h
         obtain ⟨hw, hg, hb, hp⟩ := ih (x + 1) _ acc2 h
         simp [rowCells, isWallChar, isGoalChar, isBoxChar, isPlayerChar,
           hw, hg, hb, hp, List.append_assoc, lastOr])
    · have h' : scanChar acc x y c = none := (scanChar_none_iff _ _ _ _).mpr hv
      simp [scanRow, h'] at h

theorem scanRow_none_iff (y : Int) (cs : List Char) : ∀ (x : Int) (acc : ScanAcc),
    scanRow y x cs acc = none ↔ ∃ c ∈ cs, c ∉ vocab := by
  induction cs with
  | nil => intro x acc; simp [scanRow]
  | cons c cs ih =>
    intro x acc
    cases h' : scanChar acc x y c with
    | none =>
      have hv := (scanChar_none_iff acc x y c).mp h'
      simp only [scanRow, h']
      constructor
      · intro _
        exact ⟨c, by simp, hv⟩
      · intro _
        trivial
    | some acc' =>
      have hv : c ∈ vocab := by
        by_contra hc
        rw [(scanChar_none_iff acc x y c).mpr hc] at h'
        cases h'
      simp only [scanRow, h']
      rw [ih (x + 1) acc']
      constructor
      · intro ⟨c2, hc2, hnv⟩
        exact ⟨c2, by simp [hc2], hnv⟩
      · intro ⟨c2, hc2, hnv⟩
        rcases List.mem_cons.mp hc2 with rfl | hmem
        · exact absurd hv hnv
        · exact ⟨c2, hmem, hnv⟩

theorem scanRows_acc (rs : List (List Char)) : ∀ (y : Int) (acc acc2 : ScanAcc),
    scanRows y rs acc = some acc2 →
    acc2.walls = acc.walls ++ gridCellsWith isWallChar y rs ∧
    acc2.goals = acc.goals ++ gridCellsWith isGoalChar y rs ∧
    acc2.boxes = acc.boxes ++ gridCellsWith isBoxChar y rs ∧
    acc2.player = lastOr (gridCellsWith isPlayerChar y rs) acc.player := by
  induction rs with
  | nil =>
    intro y acc acc2 h
    simp only [scanRows] at h
    injection h with h2
    subst h2
    simp [gridCellsWith, lastOr]
  | cons r rs ih =>
    intro y acc acc2 h
    simp only [scanRows] at h
    cases h' : scanRow y 0 r acc with
    | none => rw [h'] at h; cases h
    | some accR =>
      rw [h'] at h
      obtain ⟨hw1, hg1, hb1, hp1⟩ := scanRow_acc y r 0 acc accR h'
      obtain ⟨hw2, hg2, hb2, hp2⟩ := ih (y + 1) accR acc2 h
      refine ⟨?_, ?_, ?_, ?_⟩ <;>
        simp [gridCellsWith, hw1, hg1, hb1, hp1, hw2, hg2, hb2, hp2,
          List.append_assoc, lastOr_append]

theorem scanRows_none_iff (rs : List (List Char)) : ∀ (y : Int) (acc : ScanAcc),
    scanRows y rs acc = none ↔ ∃ r ∈ rs, ∃ c ∈ r, c ∉ vocab := by
  induction rs with
  | nil => intro y acc; simp [scanRows]
  | cons r rs ih =>
    intro y acc
    cases h' : scanRow y 0 r acc with
    | none =>
      have := (scanRow_none_iff y r 0 acc).mp h'
      simp only [scanRows, h']
      constructor
      · intro _
        obtain ⟨c, hc, hnv⟩ := this
        exact ⟨r, by simp, c, hc, hnv⟩
      · intro _
        trivial
    | some accR =>
      have hrow : ¬∃ c ∈ r, c ∉ vocab := by
        intro hc
        rw [(scanRow_none_iff y r 0 acc).mpr hc] at h'
        cases h'
      simp only [scanRows, h']
      rw [ih (y + 1) accR]
      constructor
      · intro ⟨r2, hr2, hc⟩
        exact ⟨r2, by simp [hr2], hc⟩
      · intro ⟨r2, hr2, hc⟩
        rcases List.mem_cons.mp hr2 with rfl | hmem
        · exact absurd hc hrow
        · exact ⟨r2, hmem, hc⟩

theorem sortPts_sorted (l : List Pt) : (sortPts l).Pairwise fun a b => ptLE a b = true :=
  List.sorted_insertionSort _ l

/-! ### Claim C5: the parser's failure conditions -/

/-- Claim C5: `parseSokoban` returns `none` exactly when, after trimming and
dropping blank lines, there are no rows, or some row's length differs from the
first row's, or some character is outside the 7-symbol vocabulary, or no
player tile is present, or some box or goal cell is unreachable from the
(last) player tile by 4-directional flood fill over non-wall cells; on
success the returned state's box list is sorted by `(y, then x)` ascending. -/
theorem c5_parse_characterization (input : String) :
    (parseSokoban input = none ↔
      rowsOf input = [] ∨
      (∃ r ∈ rowsOf input, r.length ≠ ((rowsOf input).headD "").length) ∨
      (∃ r ∈ rowsOf input, ∃ c ∈ r.data, c ∉ vocab) ∨
      lastOr (gridCellsWith isPlayerChar 0 ((rowsOf input).map String.data)) none = none ∨
      (∃ pl, lastOr (gridCellsWith isPlayerChar 0 ((rowsOf input).map String.data)) none
          = some pl ∧
        ∃ p ∈ gridCellsWith isBoxChar 0 ((rowsOf input).map String.data) ++
            gridCellsWith isGoalChar 0 ((rowsOf input).map String.data),
          p ∉ floodReach ((rowsOf input).headD "").length (rowsOf input).length
            (gridCellsWith isWallChar 0 ((rowsOf input).map String.data)) pl)) ∧
    (∀ m st, parseSokoban input = some (m, st) →
      st.boxes.Pairwise fun a b => a.2 < b.2 ∨ (a.2 = b.2 ∧ a.1 ≤ b.1)) := by
  simp only [parseSokoban]
  by_cases hE : (rowsOf input).isEmpty
  · rw [if_pos hE]
    have hnil : rowsOf input = [] := List.isEmpty_iff.mp hE
    exact ⟨⟨fun _ => Or.inl hnil, fun _ => rfl⟩, fun m st h => absurd h (by simp)⟩
  · rw [if_neg hE]
    have hne : rowsOf input ≠ [] := by simpa [List.isEmpty_iff] using hE
    by_cases hrag : ((rowsOf input).any fun r =>
        decide (r.length ≠ ((rowsOf input).headD "").length)) = true
    · rw [if_pos hrag]
      have hd2 : ∃ r ∈ rowsOf input, r.length ≠ ((rowsOf input).headD "").length := by
        simpa using hrag
      exact ⟨⟨fun _ => Or.inr (Or.inl hd2), fun _ => rfl⟩, fun m st h => absurd h (by simp)⟩
    · rw [if_neg hrag]
      have hrag2 : ∀ r ∈ rowsOf input, r.length = ((rowsOf input).headD "").length := by
        intro r hr
        by_contra hc
        exact hrag (List.any_eq_true.mpr ⟨r, hr, by simpa using hc⟩)
      rcases Option.eq_none_or_eq_some
          (scanRows 0 ((rowsOf input).map String.data) ⟨[], [], none, []⟩) with hS | ⟨acc, hS⟩
      · have hd3 := (scanRows_none_iff _ _ _).mp hS
        simp only [hS]
        refine ⟨⟨fun _ => Or.inr (Or.inr (Or.inl ?_)), fun _ => trivial⟩,
          fun m st h => absurd h (by simp)⟩
        obtain ⟨rd, hrd, c, hc, hnv⟩ := hd3
        obtain ⟨r, hr, rfl⟩ := List.mem_map.mp hrd
        exact ⟨r, hr, c, hc, hnv⟩
      · obtain ⟨hwEq, hgEq, hbEq, hpEq⟩ := scanRows_acc _ _ _ _ hS
        simp only [ScanAcc.walls, ScanAcc.goals, ScanAcc.boxes, ScanAcc.player,
          List.nil_append] at hwEq hgEq hbEq hpEq
        simp only [hS]
        rcases Option.eq_none_or_eq_some acc.player with hP | ⟨pl, hP⟩
        · simp only [hP]
          refine ⟨⟨fun _ => Or.inr (Or.inr (Or.inr (Or.inl ?_))), fun _ => trivial⟩,
            fun m st h => absurd h (by simp)⟩
          rw [← hpEq, hP]
        · simp only [hP]
          by_cases hbx : (acc.boxes.any fun p =>
              !hasPt (floodReach ((rowsOf input).headD "").length (rowsOf input).length
                acc.walls pl) p) = true
          · rw [if_pos hbx]
            refine ⟨⟨fun _ => Or.inr (Or.inr (Or.inr (Or.inr ?_))), fun _ => rfl⟩,
              fun m st h => absurd h (by simp)⟩
            rw [List.any_eq_true] at hbx
            obtain ⟨p, hp, hnr⟩ := hbx
            have hnr2 : p ∉ floodReach ((rowsOf input).headD "").length
                (rowsOf input).length acc.walls pl := by
              simpa [hasPt] using hnr
            refine ⟨pl, by rw [← hpEq, hP], p, ?_, ?_⟩
            · exact List.mem_append.mpr (Or.inl (hbEq ▸ hp))
            · rw [← hwEq]
              exact hnr2
          · rw [if_neg hbx]
            by_cases hgl : (acc.goals.any fun p =>
                !hasPt (floodReach ((rowsOf input).headD "").length (rowsOf input).length
                  acc.walls pl) p) = true
            · rw [if_pos hgl]
              refine ⟨⟨fun _ => Or.inr (Or.inr (Or.inr (Or.inr ?_))), fun _ => rfl⟩,
                fun m st h => absurd h (by simp)⟩
              rw [List.any_eq_true] at hgl
              obtain ⟨p, hp, hnr⟩ := hgl
              have hnr2 : p ∉ floodReach ((rowsOf input).headD "").length
                  (rowsOf input).length acc.walls pl := by
                simpa [hasPt] using hnr
              refine ⟨pl, by rw [← hpEq, hP], p, ?_, ?_⟩
              · exact List.mem_append.mpr (Or.inr (hgEq ▸ hp))
              · rw [← hwEq]
                exact hnr2
            · rw [if_neg hgl]
              have hbx2 : ∀ p ∈ acc.boxes, p ∈ floodReach ((rowsOf input).headD "").length
                  (rowsOf input).length acc.walls pl := by
                intro p hp
                by_contra hc
                exact hbx (List.any_eq_true.mpr ⟨p, hp, by simpa [hasPt] using hc⟩)
              have hgl2 : ∀ p ∈ acc.goals, p ∈ floodReach ((rowsOf input).headD "").length
                  (rowsOf input).length acc.walls pl := by
                intro p hp
                by_contra hc
                exact hgl (List.any_eq_true.mpr ⟨p, hp, by simpa [hasPt] using hc⟩)
              constructor
              · constructor
                · intro h
                  exact absurd h (by simp)
                · intro h
                  rcases h with h | h | h | h | ⟨pl2, hpl2, p, hp, hnr⟩
                  · exact absurd h hne
                  · obtain ⟨r, hr, hlen⟩ := h
                    exact absurd (hrag2 r hr) hlen
                  · obtain ⟨r, hr, c, hc, hnv⟩ := h
                    exact Option.noConfusion (hS ▸ (scanRows_none_iff _ _ _).mpr
                      ⟨r.data, List.mem_map.mpr ⟨r, hr, rfl⟩, c, hc, hnv⟩)
                  · rw [← hpEq, hP] at h
                    cases h
                  · rw [← hpEq, hP] at hpl2
                    injection hpl2 with hpl3
                    subst hpl3
                    rw [← hwEq] at hnr
                    rcases List.mem_append.mp hp with hp2 | hp2
                    · exact absurd (hbx2 p (hbEq ▸ hp2)) hnr
                    · exact absurd (hgl2 p (hgEq ▸ hp2)) hnr
              · intro m st h
                injection h with h2
                injection h2 with hm hst
                subst hst
                refine (sortPts_sorted acc.boxes).imp ?_
                intro a b hab
                simpa [ptLE, Bool.or_eq_true, Bool.and_eq_true, decide_eq_true_eq] using hab

/-- Witness for the C5 characterization: the trivial solvable puzzle parses,
and the success clause yields a sorted box list. -/
theorem c5_characterization_witness :
    sSolv.boxes.Pairwise fun a b => a.2 < b.2 ∨ (a.2 = b.2 ∧ a.1 ≤ b.1) :=
  (c5_parse_characterization "#####\n#wb+#\n#####").2 mSolv sSolv (by decide)

/-! ### Decimal serialization lemmas -/

theorem valFrom_append (a : Nat) (l1 l2 : List Char) :
    valFrom a (l1 ++ l2) = valFrom (valFrom a l1) l2 :=
  List.foldl_append _ _ _ _

theorem digitChar_val : ∀ k < 10, (Nat.digitChar k).toNat - 48 = k := by decide

theorem digitChar_isDigit : ∀ k < 10, (Nat.digitChar k).isDigit = true := by decide

theorem toDigitsCore_append (fuel : Nat) : ∀ (n : Nat) (ds : List Char),
    Nat.toDigitsCore 10 fuel n ds = Nat.toDigitsCore 10 fuel n [] ++ ds := by
  induction fuel with
  | zero => intro n ds; simp [Nat.toDigitsCore]
  | succ f ih =>
    intro n ds
    simp only [Nat.toDigitsCore]
    by_cases h : n / 10 = 0
    · simp [h]
    · rw [if_neg h, if_neg h, ih (n / 10) (Nat.digitChar (n % 10) :: ds),
        ih (n / 10) [Nat.digitChar (n % 10)]]
      simp

theorem coreVal (fuel : Nat) : ∀ (n a : Nat), n < fuel →
    valFrom a (Nat.toDigitsCore 10 fuel n []) =
      a * 10 ^ (Nat.toDigitsCore 10 fuel n []).length + n := by
  induction fuel with
  | zero => intro n a hn; omega
  | succ f ih =>
    intro n a hn
    simp only [Nat.toDigitsCore]
    by_cases h : n / 10 = 0
    · rw [if_pos h]
      have h10 : n < 10 := by omega
      have hv : (Nat.digitChar n).toNat - 48 = n := digitChar_val n h10
      simp [valFrom, Nat.mod_eq_of_lt h10, hv]
    · rw [if_neg h]
      rw [toDigitsCore_append f (n / 10) [Nat.digitChar (n % 10)]]
      have hpos : 0 < n := by
        rcases Nat.eq_zero_or_pos n with rfl | hp
        · simp at h
        · exact hp
      have hlt : n / 10 < n := Nat.div_lt_self hpos (by omega)
      have hdiv : n / 10 < f := by omega
      rw [valFrom_append, ih (n / 10) a hdiv]
      have hv := digitChar_val (n % 10) (Nat.mod_lt n (by omega))
      have hmod : n / 10 * 10 + n % 10 = n := by omega
      simp only [valFrom, List.foldl_cons, List.foldl_nil, hv, List.length_append,
        List.length_singleton]
      calc (a * 10 ^ (Nat.toDigitsCore 10 f (n / 10) []).length + n / 10) * 10 + n % 10
          = a * (10 ^ (Nat.toDigitsCore 10 f (n / 10) []).length * 10) +
              (n / 10 * 10 + n % 10) := by ring
        _ = a * 10 ^ ((Nat.toDigitsCore 10 f (n / 10) []).length + 1) + n := by
            rw [← pow_succ, hmod]

theorem digitsVal_toDigits (n : Nat) : digitsVal (Nat.toDigits 10 n) = n := by
  have h := coreVal (n + 1) n 0 (by omega)
  simpa [Nat.toDigits, digitsVal, valFrom] using h

theorem toDigitsCore_all_digits (fuel : Nat) : ∀ (n : Nat) (ds : List Char),
    (∀ c ∈ ds, c.isDigit = true) →
    ∀ c ∈ Nat.toDigitsCore 10 fuel n ds, c.isDigit = true := by
  induction fuel with
  | zero => intro n ds hds; simpa [Nat.toDigitsCore] using hds
  | succ f ih =>
    intro n ds hds c hc
    have hd : (Nat.digitChar (n % 10)).isDigit = true :=
      digitChar_isDigit (n % 10) (Nat.mod_lt n (by omega) |>.trans_le (le_refl 10) |> fun _ => by omega)
    simp only [Nat.toDigitsCore] at hc
    by_cases h : n / 10 = 0
    · rw [if_pos h] at hc
      rcases List.mem_cons.mp hc with rfl | hmem
      · exact digitChar_isDigit _ (by omega)
      · exact hds c hmem
    · rw [if_neg h] at hc
      refine ih (n / 10) (Nat.digitChar (n % 10) :: ds) ?_ c hc
      intro c2 hc2
      rcases List.mem_cons.mp hc2 with rfl | hmem
      · exact digitChar_isDigit _ (by omega)
      · exact hds c2 hmem

theorem toDigits_all_digits (n : Nat) : ∀ c ∈ Nat.toDigits 10 n, c.isDigit = true :=
  toDigitsCore_all_digits (n + 1) n [] (by simp)

theorem toDigits_ne_nil (n : Nat) : Nat.toDigits 10 n ≠ [] := by
  unfold Nat.toDigits
  rw [show Nat.toDigitsCore 10 (n + 1) n [] =
    Nat.toDigitsCore 10 (n + 1) n [] ++ [] from (List.append_nil _).symm]
  simp only [Nat.toDigitsCore]
  by_cases h : n / 10 = 0
  · simp [h]
  · rw [if_neg h, toDigitsCore_append n (n / 10) [Nat.digitChar (n % 10)]]
    simp

theorem takeWhile_all {p : Char → Bool} : ∀ {l : List Char}, (∀ c ∈ l, p c = true) →
    l.takeWhile p = l := by
  intro l h
  induction l with
  | nil => rfl
  | cons c cs ih =>
    rw [List.takeWhile_cons, if_pos (h c (by simp))]
    rw [ih fun c2 hc2 => h c2 (by simp [hc2])]

theorem nat_repr_data (m : Nat) : (Nat.repr m).data = Nat.toDigits 10 m := rfl

theorem parseIntJS_nat (m : Nat) : parseIntJS (Nat.repr m) = (m : Int) := by
  rcases hd : Nat.toDigits 10 m with _ | ⟨c, cs⟩
  · exact absurd hd (toDigits_ne_nil m)
  · have hdig : ∀ ch ∈ Nat.toDigits 10 m, ch.isDigit = true := toDigits_all_digits m
    have hc : c.isDigit = true := hdig c (by rw [hd]; simp)
    have hcne : ¬(c = '-') := by
      intro h
      subst h
      simp [Char.isDigit] at hc
    simp only [parseIntJS, nat_repr_data, hd]
    rw [if_neg hcne]
    rw [takeWhile_all (by rw [← hd]; exact hdig)]
    rw [← hd, digitsVal_toDigits]

theorem parseIntJS_toString (i : Int) : parseIntJS (toString i) = i := by
  cases i with
  | ofNat m => exact parseIntJS_nat m
  | negSucc m =>
    have hdata : (toString (Int.negSucc m)).data = '-' :: Nat.toDigits 10 (m + 1) := rfl
    have hdig := toDigits_all_digits (m + 1)
    simp only [parseIntJS, hdata]
    rw [if_pos trivial, takeWhile_all hdig, digitsVal_toDigits]
    simp [Int.negSucc_eq]

theorem toString_int_chars (i : Int) : ∀ c ∈ (toString i).data, c = '-' ∨ c.isDigit = true := by
  cases i with
  | ofNat m =>
    intro c hc
    exact Or.inr (toDigits_all_digits m c hc)
  | negSucc m =>
    intro c hc
    have hdata : (toString (Int.negSucc m)).data = '-' :: Nat.toDigits 10 (m + 1) := rfl
    rw [hdata] at hc
    rcases List.mem_cons.mp hc with rfl | hmem
    · exact Or.inl rfl
    · exact Or.inr (toDigits_all_digits (m + 1) c hmem)

theorem toString_int_no_comma (i : Int) : ',' ∉ (toString i).data := by
  intro h
  rcases toString_int_chars i ',' h with h2 | h2
  · cases h2
  · simp [Char.isDigit] at h2

theorem toString_int_no_slash (i : Int) : '/' ∉ (toString i).data := by
  intro h
  rcases toString_int_chars i '/' h with h2 | h2
  · cases h2
  · simp [Char.isDigit] at h2

/-! ### Split and join lemmas for the serialization -/

theorem splitOn_no_sep {sep : Char} {l : List Char} (h : sep ∉ l) : l.splitOn sep = [l] := by
  have h2 : ∀ x ∈ l, ¬((x == sep) = true) := by
    intro x hx hpx
    exact h (by rwa [show x = sep from by simpa using hpx] at hx)
  simpa [List.splitOn] using List.splitOnP_eq_single _ _ h2

theorem splitOn_sep_append {sep : Char} {xs ys : List Char} (h : sep ∉ xs) :
    (xs ++ sep :: ys).splitOn sep = xs :: ys.splitOn sep := by
  have h2 : ∀ x ∈ xs, ¬((x == sep) = true) := by
    intro x hx hpx
    exact h (by rwa [show x = sep from by simpa using hpx] at hx)
  simpa [List.splitOn] using List.splitOnP_first _ _ h2 sep (by simp) ys

theorem ptStr_data (p : Pt) :
    (ptStr p).data = (toString p.1).data ++ ',' :: (toString p.2).data := by
  simp [ptStr, String.data_append]

theorem ptStr_no_slash (p : Pt) : '/' ∉ (ptStr p).data := by
  rw [ptStr_data]
  intro h
  rcases List.mem_append.mp h with h2 | h2
  · exact toString_int_no_slash p.1 h2
  · rcases List.mem_cons.mp h2 with h3 | h3
    · cases h3
    · exact toString_int_no_slash p.2 h3

theorem parsePt_ptStr (p : Pt) : parsePt (ptStr p) = p := by
  have hsplit : (ptStr p).data.splitOn ',' = [(toString p.1).data, (toString p.2).data] := by
    rw [ptStr_data, splitOn_sep_append (toString_int_no_comma p.1),
      splitOn_no_sep (toString_int_no_comma p.2)]
  simp only [parsePt, splitStr, hsplit]
  simp only [List.map_cons, List.map_nil, List.headD_cons, List.drop_succ_cons,
    List.drop_zero]
  have h1 : String.mk (toString p.1).data = toString p.1 := rfl
  have h2 : String.mk (toString p.2).data = toString p.2 := rfl
  rw [h1, h2, parseIntJS_toString, parseIntJS_toString]

theorem intercalate_go_data (sep : String) : ∀ (as : List String) (acc : String),
    (String.intercalate.go acc sep as).data =
      acc.data ++ as.flatMap fun a => sep.data ++ a.data := by
  intro as
  induction as with
  | nil => intro acc; simp [String.intercalate.go]
  | cons a as ih =>
    intro acc
    rw [String.intercalate.go, ih]
    simp [String.data_append, List.append_assoc]

theorem intercalate_data (sep : String) (a : String) (l : List String) :
    (String.intercalate sep (a :: l)).data =
      a.data ++ l.flatMap fun x => sep.data ++ x.data := by
  rw [String.intercalate, intercalate_go_data]

theorem splitOn_inter (sep : Char) : ∀ (ds : List (List Char)) (hd : List Char),
    sep ∉ hd → (∀ l ∈ ds, sep ∉ l) →
    List.splitOn sep (hd ++ ds.flatMap fun x => sep :: x) = hd :: ds := by
  intro ds
  induction ds with
  | nil =>
    intro hd hhd _
    simpa using splitOn_no_sep hhd
  | cons d ds ih =>
    intro hd hhd hds
    rw [List.flatMap_cons, show hd ++ ((sep :: d) ++ ds.flatMap fun x => sep :: x) =
      hd ++ sep :: (d ++ ds.flatMap fun x => sep :: x) from by simp,
      splitOn_sep_append hhd,
      ih d (hds d (by simp)) fun l hl => hds l (by simp [hl])]

/-- The `"x,y"`-points-joined-by-`"/"` serialization decodes to exactly the
player-then-boxes point sequence: the encoding is injective on the pair
(player, box list), which justifies keying the visited index by that pair. -/
theorem parsePts_serialize (s : SokobanState) :
    parsePts (serialize s) = s.player :: s.boxes := by
  have hflat : ∀ l : List Pt, (l.map ptStr).flatMap (fun a => "/".data ++ a.data) =
      (l.map fun p => (ptStr p).data).flatMap fun x => '/' :: x := by
    intro l
    induction l with
    | nil => rfl
    | cons q qs ih =>
      simp only [List.map_cons, List.flatMap_cons]
      rw [ih]
      rfl
  have hdata : (serialize s).data = (ptStr s.player).data ++
      (s.boxes.map fun p => (ptStr p).data).flatMap fun x => '/' :: x := by
    rw [serialize, List.map_cons, intercalate_data, hflat]
  have hsplit : (serialize s).data.splitOn '/' =
      (ptStr s.player).data :: s.boxes.map fun p => (ptStr p).data := by
    rw [hdata]
    refine splitOn_inter '/' _ _ (ptStr_no_slash s.player) ?_
    intro l hl
    obtain ⟨p, hp, rfl⟩ := List.mem_map.mp hl
    exact ptStr_no_slash p
  simp only [parsePts, splitStr, hsplit, List.map_cons, List.map_map]
  congr 1
  · exact parsePt_ptStr s.player
  · calc s.boxes.map (parsePt ∘ String.mk ∘ fun p => (ptStr p).data)
        = s.boxes.map id := List.map_congr_left fun p _ => parsePt_ptStr p
    _ = s.boxes := List.map_id s.boxes

theorem deserialize_serialize (s : SokobanState) :
    deserialize (serialize s) = ⟨s.player, sortPts s.boxes, sortPts s.boxes⟩ := by
  rw [deserialize, parsePts_serialize]

/-! ### Claim C7: the serialization round trip -/

/-- Claim C7: for a state whose player and box coordinates lie within a
`w` by `h` grid (box list in any order), `deserialize (serialize s)` has the
same player, the same set of box positions, a box list sorted by `(y, then x)`
ascending, and a box set that matches the box list. -/
theorem c7_serialize_roundtrip (w h : Nat) (s : SokobanState)
    (_hp : 0 ≤ s.player.1 ∧ s.player.1 < (w : Int) ∧ 0 ≤ s.player.2 ∧ s.player.2 < (h : Int))
    (_hb : ∀ p ∈ s.boxes, 0 ≤ p.1 ∧ p.1 < (w : Int) ∧ 0 ≤ p.2 ∧ p.2 < (h : Int)) :
    (deserialize (serialize s)).player = s.player ∧
    (∀ p, p ∈ (deserialize (serialize s)).boxes ↔ p ∈ s.boxes) ∧
    ((deserialize (serialize s)).boxes.Pairwise fun a b =>
      a.2 < b.2 ∨ (a.2 = b.2 ∧ a.1 ≤ b.1)) ∧
    (deserialize (serialize s)).boxSet = (deserialize (serialize s)).boxes := by
  rw [deserialize_serialize]
  refine ⟨rfl, fun p => mem_sortPts, ?_, rfl⟩
  refine (sortPts_sorted s.boxes).imp ?_
  intro a b hab
  simpa [ptLE, Bool.or_eq_true, Bool.and_eq_true, decide_eq_true_eq] using hab

/-- Witness for the C7 round trip at a concrete in-grid state with unsorted
boxes. -/
theorem c7_roundtrip_witness : (deserialize (serialize sRound)).player = sRound.player :=
  (c7_serialize_roundtrip 5 5 sRound (by decide) (by decide)).1

/-! ### Claim C2: the window condition of `isInvalid` (code bug) -/

/-- Claim C2 is refuted on the code: at `mTypo`/`sTypo` the implemented
`isInvalid` returns `true` although no 2x2 window satisfies the claimed
condition (all four cells wall-or-box with one of the window's box cells off
goal) — the second disjunct of the source tests the literal cell `(1, y-1)`
instead of `(x, y-1)`. -/
theorem c2_isInvalid_typo_code_bug :
    isInvalid mTypo sTypo = true ∧ ¬ specWindowDeadlock mTypo sTypo := by
  decide

/-! ### Claim C3: the deadlock detector flags a solvable state (code bug) -/

/-- Claim C3 is refuted on the code: `isInvalid` flags `sTypo`, yet a single
raw push (down) moves its only box onto the goal, completing the puzzle. -/
theorem c3_isInvalid_flags_solvable_code_bug :
    isInvalid mTypo sTypo = true ∧ rawNext mTypo sTypo (0, 1) = some tTypo ∧
      isComplete mTypo tTypo = true := by
  decide

/-! ### Claim C8: the two `isInvalid` implementations differ -/

/-- Claim C8 counterexample: on the corner-deadlocked `sCorner` the two
observed `isInvalid` implementations return different booleans. -/
theorem c8_isInvalid_implementations_differ :
    isInvalid mCorner sCorner ≠ isInvalidVariant mCorner sCorner := by
  decide

/-- Claim C8 (amended): the two implementations compute different predicates,
and they differ in both directions: the variant flags corner deadlocks that
the `lib.ts` implementation misses, and the `lib.ts` typo branch fires on
states the variant accepts. -/
theorem c8_amended_both_directions :
    (isInvalid mCorner sCorner = false ∧ isInvalidVariant mCorner sCorner = true) ∧
      (isInvalid mTypo sTypo = true ∧ isInvalidVariant mTypo sTypo = false) := by
  decide

/-! ### Claim C4: pushes are never checked by the deadlock detector -/

/-- Claim C4 counterexample: the push `(0, -1)` from `sPush` produces `tPush`,
which the deadlock detector flags, yet `nextState` returns it rather than
`none` — the push branch never consults the detector. -/
theorem c4_push_result_not_checked :
    nextState mPush sPush (0, -1) = some tPush ∧ isInvalid mPush tPush = true := by
  decide

/-- Full characterization of `nextState`, used both for claim C4 and by the
search-level proofs. -/
theorem nextState_characterization_aux (m : SokobanMap) (s : SokobanState) (d : Pt) :
    (nextState m s d = none ↔
      (s.player.1 + d.1 < 0 ∨ (m.width : Int) ≤ s.player.1 + d.1 ∨
        s.player.2 + d.2 < 0 ∨ (m.height : Int) ≤ s.player.2 + d.2 ∨
        (s.player.1 + d.1, s.player.2 + d.2) ∈ m.wallSet ∨
        ((s.player.1 + d.1, s.player.2 + d.2) ∈ s.boxSet ∧
          ((s.player.1 + d.1 + d.1, s.player.2 + d.2 + d.2) ∈ m.wallSet ∨
            (s.player.1 + d.1 + d.1, s.player.2 + d.2 + d.2) ∈ s.boxSet)) ∨
        ((s.player.1 + d.1, s.player.2 + d.2) ∉ s.boxSet ∧
          isInvalid m ⟨(s.player.1 + d.1, s.player.2 + d.2), s.boxes, s.boxSet⟩ = true))) ∧
    ∀ t, nextState m s d = some t →
      t.player = (s.player.1 + d.1, s.player.2 + d.2) ∧
      ((s.player.1 + d.1, s.player.2 + d.2) ∈ s.boxSet →
        t.boxes = sortPts ((s.boxes.filter fun q =>
          decide (q ≠ (s.player.1 + d.1, s.player.2 + d.2))) ++
            [(s.player.1 + d.1 + d.1, s.player.2 + d.2 + d.2)]) ∧
        t.boxSet = t.boxes) ∧
      ((s.player.1 + d.1, s.player.2 + d.2) ∉ s.boxSet →
        t.boxes = s.boxes ∧ t.boxSet = s.boxSet) := by
  simp only [nextState]
  by_cases c1 : (decide (s.player.1 + d.1 < 0) ||
      decide ((m.width : Int) ≤ s.player.1 + d.1) ||
      decide (s.player.2 + d.2 < 0) ||
      decide ((m.height : Int) ≤ s.player.2 + d.2)) = true
  · rw [if_pos c1]
    have h4 : s.player.1 + d.1 < 0 ∨ (m.width : Int) ≤ s.player.1 + d.1 ∨
        s.player.2 + d.2 < 0 ∨ (m.height : Int) ≤ s.player.2 + d.2 := by
      simpa [Bool.or_eq_true, decide_eq_true_eq, or_assoc] using c1
    refine ⟨⟨fun _ => ?_, fun _ => rfl⟩, fun t ht => absurd ht (by simp)⟩
    rcases h4 with h | h | h | h
    · exact Or.inl h
    · exact Or.inr (Or.inl h)
    · exact Or.inr (Or.inr (Or.inl h))
    · exact Or.inr (Or.inr (Or.inr (Or.inl h)))
  · rw [if_neg c1]
    have hb4 : ¬(s.player.1 + d.1 < 0) ∧ ¬((m.width : Int) ≤ s.player.1 + d.1) ∧
        ¬(s.player.2 + d.2 < 0) ∧ ¬((m.height : Int) ≤ s.player.2 + d.2) := by
      simpa [Bool.or_eq_true, decide_eq_true_eq, or_assoc, not_or] using c1
    by_cases cw : hasPt m.wallSet (s.player.1 + d.1, s.player.2 + d.2) = true
    · rw [if_pos cw]
      refine ⟨⟨fun _ => ?_, fun _ => rfl⟩, fun t ht => absurd ht (by simp)⟩
      exact Or.inr (Or.inr (Or.inr (Or.inr (Or.inl (hasPt_iff.mp cw)))))
    · rw [if_neg cw]
      have hw : (s.player.1 + d.1, s.player.2 + d.2) ∉ m.wallSet :=
        fun h => cw (hasPt_iff.mpr h)
      by_cases cbox : hasPt s.boxSet (s.player.1 + d.1, s.player.2 + d.2) = true
      · have hbox : (s.player.1 + d.1, s.player.2 + d.2) ∈ s.boxSet := hasPt_iff.mp cbox
        rw [if_pos cbox]
        by_cases cwl : hasPt m.wallSet (s.player.1 + d.1 + d.1, s.player.2 + d.2 + d.2) = true
        · rw [if_pos cwl]
          refine ⟨⟨fun _ => ?_, fun _ => rfl⟩, fun t ht => absurd ht (by simp)⟩
          exact Or.inr (Or.inr (Or.inr (Or.inr (Or.inr (Or.inl
            ⟨hbox, Or.inl (hasPt_iff.mp cwl)⟩)))))
        · rw [if_neg cwl]
          by_cases cbl : hasPt s.boxSet (s.player.1 + d.1 + d.1, s.player.2 + d.2 + d.2) = true
          · rw [if_pos cbl]
            refine ⟨⟨fun _ => ?_, fun _ => rfl⟩, fun t ht => absurd ht (by simp)⟩
            exact Or.inr (Or.inr (Or.inr (Or.inr (Or.inr (Or.inl
              ⟨hbox, Or.inr (hasPt_iff.mp cbl)⟩)))))
          · rw [if_neg cbl]
            constructor
            · constructor
              · intro h
                exact absurd h (by simp)
              · intro h
                rcases h with h | h | h | h | h | ⟨h1, h2 | h2⟩ | ⟨h1, h2⟩
                · exact absurd h hb4.1
                · exact absurd h hb4.2.1
                · exact absurd h hb4.2.2.1
                · exact absurd h hb4.2.2.2
                · exact absurd h hw
                · exact absurd (hasPt_iff.mpr h2) (by simp [cwl])
                · exact absurd (hasPt_iff.mpr h2) (by simp [cbl])
                · exact absurd hbox h1
            · intro t ht
              have heq := Option.some.inj ht
              subst heq
              exact ⟨rfl, fun _ => ⟨rfl, rfl⟩, fun hnb => absurd hbox hnb⟩
      · rw [if_neg cbox]
        have hnbox : (s.player.1 + d.1, s.player.2 + d.2) ∉ s.boxSet :=
          fun h => cbox (hasPt_iff.mpr h)
        by_cases cinv : isInvalid m ⟨(s.player.1 + d.1, s.player.2 + d.2),
            s.boxes, s.boxSet⟩ = true
        · rw [if_pos cinv]
          refine ⟨⟨fun _ => ?_, fun _ => rfl⟩, fun t ht => absurd ht (by simp)⟩
          exact Or.inr (Or.inr (Or.inr (Or.inr (Or.inr (Or.inr ⟨hnbox, cinv⟩)))))
        · rw [if_neg cinv]
          constructor
          · constructor
            · intro h
              exact absurd h (by simp)
            · intro h
              rcases h with h | h | h | h | h | ⟨h1, h2⟩ | ⟨h1, h2⟩
              · exact absurd h hb4.1
              · exact absurd h hb4.2.1
              · exact absurd h hb4.2.2.1
              · exact absurd h hb4.2.2.2
              · exact absurd h hw
              · exact absurd h1 hnbox
              · exact absurd h2 cinv
          · intro t ht
            have heq := Option.some.inj ht
            subst heq
            exact ⟨rfl, fun hb2 => absurd hb2 hnbox, fun _ => ⟨rfl, rfl⟩⟩

/-- Claim C4 (amended): `nextState` returns `none` exactly when the player's
target cell is out of bounds or a wall, or holds a box whose landing cell is a
wall or holds another box, or the move is a plain (non-push) step whose
resulting state the deadlock detector flags — push results are never checked
by the detector.  On success the player is on the target cell; a push
relocates the pushed box to the landing cell (re-sorting the box list), a
plain step leaves boxes and box set unchanged. -/
theorem c4_nextState_characterization (m : SokobanMap) (s : SokobanState) (d : Pt) :
    (nextState m s d = none ↔
      (s.player.1 + d.1 < 0 ∨ (m.width : Int) ≤ s.player.1 + d.1 ∨
        s.player.2 + d.2 < 0 ∨ (m.height : Int) ≤ s.player.2 + d.2 ∨
        (s.player.1 + d.1, s.player.2 + d.2) ∈ m.wallSet ∨
        ((s.player.1 + d.1, s.player.2 + d.2) ∈ s.boxSet ∧
          ((s.player.1 + d.1 + d.1, s.player.2 + d.2 + d.2) ∈ m.wallSet ∨
            (s.player.1 + d.1 + d.1, s.player.2 + d.2 + d.2) ∈ s.boxSet)) ∨
        ((s.player.1 + d.1, s.player.2 + d.2) ∉ s.boxSet ∧
          isInvalid m ⟨(s.player.1 + d.1, s.player.2 + d.2), s.boxes, s.boxSet⟩ = true))) ∧
    ∀ t, nextState m s d = some t →
      t.player = (s.player.1 + d.1, s.player.2 + d.2) ∧
      ((s.player.1 + d.1, s.player.2 + d.2) ∈ s.boxSet →
        t.boxes = sortPts ((s.boxes.filter fun q =>
          decide (q ≠ (s.player.1 + d.1, s.player.2 + d.2))) ++
            [(s.player.1 + d.1 + d.1, s.player.2 + d.2 + d.2)]) ∧
        t.boxSet = t.boxes) ∧
      ((s.player.1 + d.1, s.player.2 + d.2) ∉ s.boxSet →
        t.boxes = s.boxes ∧ t.boxSet = s.boxSet) :=
  nextState_characterization_aux m s d

/-- Witness for the C4 amended characterization, applied to the concrete push
`nextState mPush sPush (0, -1) = some tPush`. -/
theorem c4_characterization_witness : tPush.player = (3, 3) :=
  (((c4_nextState_characterization mPush sPush (0, -1)).2 tPush (by decide)).1).trans
    (by decide)

/-! ### Congruence of the transition function up to state representation -/

theorem optRel_none_none {α β : Type} {r : α → β → Prop} : optRel r none none := trivial

theorem optRel_none_some {α β : Type} {r : α → β → Prop} {b : β}
    (h : optRel r none (some b)) : False := h

theorem optRel_some_none {α β : Type} {r : α → β → Prop} {a : α}
    (h : optRel r (some a) none) : False := h

theorem optRel_some_some {α β : Type} {r : α → β → Prop} {a : α} {b : β}
    (h : optRel r (some a) (some b)) : r a b := h

theorem deserializeK_coherent (k : Key) : coherent (deserializeK k) := fun _ => Iff.rfl

theorem sequiv_deserializeK {s : SokobanState} (hc : coherent s) :
    SEquiv s (deserializeK (serializeK s)) :=
  ⟨rfl, (sortPts_perm s.boxes).symm, fun p =>
    (hc p).trans (mem_sortPts (l := s.boxes)).symm⟩

theorem nextState_coherent {m : SokobanMap} {s t : SokobanState} {d : Pt}
    (hc : coherent s) (h : nextState m s d = some t) : coherent t := by
  obtain ⟨hpl, hpush, hplain⟩ := (nextState_characterization_aux m s d).2 t h
  by_cases hb : (s.player.1 + d.1, s.player.2 + d.2) ∈ s.boxSet
  · obtain ⟨hbx, hbs⟩ := hpush hb
    intro p
    rw [hbs]
  · obtain ⟨hbx, hbs⟩ := hplain hb
    intro p
    rw [hbs, hbx]
    exact hc p

theorem nextState_none_equiv {m : SokobanMap} {s t : SokobanState} (h : SEquiv s t) (d : Pt) :
    (nextState m s d = none ↔ nextState m t d = none) := by
  obtain ⟨hp, hbx, hbs⟩ := h
  have hinv : isInvalid m ⟨(t.player.1 + d.1, t.player.2 + d.2), s.boxes, s.boxSet⟩ =
      isInvalid m ⟨(t.player.1 + d.1, t.player.2 + d.2), t.boxes, t.boxSet⟩ :=
    isInvalid_congr hbs
  rw [(nextState_characterization_aux m s d).1, (nextState_characterization_aux m t d).1, hp]
  simp only [hbs, hinv]

theorem nextState_equiv {m : SokobanMap} {s t : SokobanState} (h : SEquiv s t) (d : Pt) :
    optRel SEquiv (nextState m s d) (nextState m t d) := by
  rcases hs : nextState m s d with _ | u
  · rcases ht : nextState m t d with _ | v
    · exact optRel_none_none
    · rw [nextState_none_equiv h d] at hs
      rw [hs] at ht
      cases ht
  · rcases ht : nextState m t d with _ | v
    · rw [← nextState_none_equiv h d] at ht
      rw [ht] at hs
      cases hs
    · obtain ⟨hp, hbx, hbs⟩ := h
      obtain ⟨hupl, hupush, huplain⟩ := (nextState_characterization_aux m s d).2 u hs
      obtain ⟨hvpl, hvpush, hvplain⟩ := (nextState_characterization_aux m t d).2 v ht
      show SEquiv u v
      have hplayer : u.player = v.player := by
        rw [hupl, hvpl, hp]
      by_cases hmem : (t.player.1 + d.1, t.player.2 + d.2) ∈ t.boxSet
      · have hmem2 : (s.player.1 + d.1, s.player.2 + d.2) ∈ s.boxSet := by
          rw [hp]
          exact (hbs _).mpr hmem
        obtain ⟨hub, hus⟩ := hupush hmem2
        obtain ⟨hvb, hvs⟩ := hvpush hmem
        have hperm : u.boxes.Perm v.boxes := by
          rw [hub, hvb, hp]
          refine (sortPts_perm _).trans (List.Perm.trans ?_ (sortPts_perm _).symm)
          exact (hbx.filter _).append_right _
        exact ⟨hplayer, hperm, fun p => by rw [hus, hvs]; exact hperm.mem_iff⟩
      · have hmem2 : (s.player.1 + d.1, s.player.2 + d.2) ∉ s.boxSet := by
          rw [hp]
          exact fun hx => hmem ((hbs _).mp hx)
        obtain ⟨hub, hus⟩ := huplain hmem2
        obtain ⟨hvb, hvs⟩ := hvplain hmem
        refine ⟨hplayer, ?_, fun p => ?_⟩
        · rw [hub, hvb]
          exact hbx
        · rw [hus, hvs]
          exact hbs p

theorem sequiv_isComplete {m : SokobanMap} {s t : SokobanState} (h : SEquiv s t) :
    isComplete m s = isComplete m t := isComplete_congr h.2.1

theorem kcomplete_serializeK {m : SokobanMap} {s : SokobanState} (hc : coherent s) :
    kcomplete m (serializeK s) = isComplete m s :=
  (sequiv_isComplete (sequiv_deserializeK hc)).symm

theorem replay_kpath (m : SokobanMap) : ∀ (cs : List Char) (s : SokobanState) (k : Key),
    coherent s → SEquiv s (deserializeK k) →
    optRel (fun t k2 => coherent t ∧ SEquiv t (deserializeK k2))
      (replay m s cs) (kpath m k cs) := by
  intro cs
  induction cs with
  | nil =>
    intro s k hc hse
    exact ⟨hc, hse⟩
  | cons c cs ih =>
    intro s k hc hse
    have hstep := nextState_equiv (m := m) hse (charDir c)
    rcases hs : nextState m s (charDir c) with _ | u
    · rcases hk : nextState m (deserializeK k) (charDir c) with _ | v
      · simp only [replay, kpath, kstep, hs, hk, Option.map_none']
        exact optRel_none_none
      · rw [hs, hk] at hstep
        exact (optRel_none_some hstep).elim
    · rcases hk : nextState m (deserializeK k) (charDir c) with _ | v
      · rw [hs, hk] at hstep
        exact (optRel_some_none hstep).elim
      · rw [hs, hk] at hstep
        have hcu : coherent u := nextState_coherent hc hs
        have hcv : coherent v := nextState_coherent (deserializeK_coherent k) hk
        have hse2 : SEquiv u (deserializeK (serializeK v)) :=
          sequiv_trans (optRel_some_some hstep) (sequiv_deserializeK hcv)
        simp only [replay, kpath, kstep, hs, hk, Option.map_some']
        exact ih u (serializeK v) hcu hse2

/-! ### Key-path and key-universe lemmas -/

theorem kpath_append (m : SokobanMap) : ∀ (cs1 cs2 : List Char) (k : Key),
    kpath m k (cs1 ++ cs2) = (kpath m k cs1).bind fun k2 => kpath m k2 cs2 := by
  intro cs1
  induction cs1 with
  | nil => intro cs2 k; rfl
  | cons c cs ih =>
    intro cs2 k
    simp only [List.cons_append, kpath]
    cases hk : kstep m k (charDir c) with
    | none => rfl
    | some k2 => exact ih cs2 k2

theorem kpath_snoc (m : SokobanMap) (cs : List Char) (c : Char) (k : Key) :
    kpath m k (cs ++ [c]) = (kpath m k cs).bind fun k2 => kstep m k2 (charDir c) := by
  rw [kpath_append]
  congr 1
  funext k2
  cases hk : kstep m k2 (charDir c) with
  | none => simp [kpath, hk]
  | some k3 => simp [kpath, hk]

theorem mem_allLists : ∀ {n : Nat} {s : Finset Pt} {l : List Pt},
    l ∈ allLists n s ↔ l.length ≤ n ∧ ∀ p ∈ l, p ∈ s := by
  intro n
  induction n with
  | zero =>
    intro s l
    simp only [allLists, Finset.mem_singleton]
    constructor
    · rintro rfl
      simp
    · intro ⟨h1, _⟩
      exact List.length_eq_zero.mp (Nat.le_zero.mp h1)
  | succ n ih =>
    intro s l
    simp only [allLists, Finset.mem_union, Finset.mem_singleton, Finset.mem_biUnion,
      Finset.mem_image]
    constructor
    · rintro (rfl | ⟨a, ha, l2, hl2, rfl⟩)
      · simp
      · obtain ⟨h1, h2⟩ := ih.mp hl2
        refine ⟨by simpa using Nat.succ_le_succ h1, ?_⟩
        intro p hp
        rcases List.mem_cons.mp hp with rfl | hm
        · exact ha
        · exact h2 p hm
    · intro ⟨h1, h2⟩
      cases l with
      | nil => exact Or.inl rfl
      | cons a l2 =>
        exact Or.inr ⟨a, h2 a (by simp), l2,
          ih.mpr ⟨by simpa using h1, fun p hp => h2 p (by simp [hp])⟩, rfl⟩

theorem init_mem_keyUniv (m : SokobanMap) (k : Key) : k ∈ keyUniv m k := by
  simp only [keyUniv, Finset.mem_product]
  exact ⟨Finset.mem_insert_self _ _,
    mem_allLists.mpr ⟨le_refl _, fun p hp =>
      Finset.mem_union_right _ (List.mem_toFinset.mpr hp)⟩⟩

theorem charDir_unit (c : Char) :
    charDir c = (0, -1) ∨ charDir c = (-1, 0) ∨ charDir c = (0, 1) ∨ charDir c = (1, 0) := by
  unfold charDir
  split
  · exact Or.inr (Or.inl rfl)
  split
  · exact Or.inr (Or.inr (Or.inl rfl))
  split
  · exact Or.inr (Or.inr (Or.inr rfl))
  · exact Or.inl rfl

theorem kstep_mem_keyUniv {m : SokobanMap} {k0 k k2 : Key} (hk : k ∈ keyUniv m k0)
    (c : Char) (h : kstep m k (charDir c) = some k2) : k2 ∈ keyUniv m k0 := by
  rcases hw : nextState m (deserializeK k) (charDir c) with _ | w
  · rw [kstep, hw] at h
    cases h
  · rw [kstep, hw] at h
    injection h with h2
    subst h2
    have hnn : ¬(nextState m (deserializeK k) (charDir c) = none) := by
      rw [hw]
      simp
    have hdisj :=
      (Iff.not (nextState_characterization_aux m (deserializeK k) (charDir c)).1).mp hnn
    simp only [not_or] at hdisj
    obtain ⟨hb1, hb2, hb3, hb4, _⟩ := hdisj
    obtain ⟨hpl, hpush, hplain⟩ :=
      (nextState_characterization_aux m (deserializeK k) (charDir c)).2 w hw
    simp only [keyUniv, Finset.mem_product] at hk ⊢
    obtain ⟨hkp, hkb⟩ := hk
    obtain ⟨hkl, hkm⟩ := mem_allLists.mp hkb
    have hdk_pl : (deserializeK k).player = k.1 := rfl
    have hdk_bx : (deserializeK k).boxes = sortPts k.2 := rfl
    have htgt : w.player ∈ gridFin m := by
      rw [hpl]
      simp only [gridFin, Finset.mem_product, Finset.mem_Ico]
      constructor
      · constructor
        · omega
        · omega
      · constructor
        · omega
        · omega
    refine ⟨Finset.mem_insert_of_mem htgt, mem_allLists.mpr ⟨?_, ?_⟩⟩
    · show w.boxes.length ≤ k0.2.length
      by_cases hmem : ((deserializeK k).player.1 + (charDir c).1,
          (deserializeK k).player.2 + (charDir c).2) ∈ (deserializeK k).boxSet
      · obtain ⟨hwb, _⟩ := hpush hmem
        have hmem2 : ((deserializeK k).player.1 + (charDir c).1,
            (deserializeK k).player.2 + (charDir c).2) ∈ sortPts k.2 := hmem
        have hfl : ((sortPts k.2).filter fun q =>
            decide (q ≠ ((deserializeK k).player.1 + (charDir c).1,
              (deserializeK k).player.2 + (charDir c).2))).length < (sortPts k.2).length := by
          refine Nat.lt_of_le_of_ne (List.length_filter_le _ _) fun he => ?_
          have := List.filter_length_eq_length.mp he _ hmem2
          simp at this
        have hsl : (sortPts k.2).length = k.2.length := (sortPts_perm k.2).length_eq
        have hlen2 : (sortPts ((sortPts k.2).filter (fun q =>
            decide (q ≠ ((deserializeK k).player.1 + (charDir c).1,
              (deserializeK k).player.2 + (charDir c).2))) ++
            [((deserializeK k).player.1 + (charDir c).1 + (charDir c).1,
              (deserializeK k).player.2 + (charDir c).2 + (charDir c).2)])).length =
            ((sortPts k.2).filter fun q =>
            decide (q ≠ ((deserializeK k).player.1 + (charDir c).1,
              (deserializeK k).player.2 + (charDir c).2))).length + 1 := by
          rw [(sortPts_perm _).length_eq, List.length_append, List.length_singleton]
        rw [hwb, hdk_bx]
        omega
      · obtain ⟨hwb, _⟩ := hplain hmem
        rw [hwb, hdk_bx, (sortPts_perm k.2).length_eq]
        exact hkl
    · intro p hp0
      have hp : p ∈ w.boxes := hp0
      by_cases hmem : ((deserializeK k).player.1 + (charDir c).1,
          (deserializeK k).player.2 + (charDir c).2) ∈ (deserializeK k).boxSet
      · obtain ⟨hwb, _⟩ := hpush hmem
        rw [hwb] at hp
        rw [mem_sortPts] at hp
        rcases List.mem_append.mp hp with hp2 | hp2
        · have hp3 := (List.mem_filter.mp hp2).1
          rw [hdk_bx, mem_sortPts] at hp3
          exact hkm p hp3
        · have hp3 : p = ((deserializeK k).player.1 + (charDir c).1 + (charDir c).1,
              (deserializeK k).player.2 + (charDir c).2 + (charDir c).2) := by
            simpa using hp2
          subst hp3
          refine Finset.mem_union_left _ ?_
          simp only [extFin, Finset.mem_product, Finset.mem_Ico]
          rw [hdk_pl] at hb1 hb2 hb3 hb4 ⊢
          rcases charDir_unit c with hd | hd | hd | hd <;>
            (rw [hd] at hb1 hb2 hb3 hb4 ⊢
             constructor
             · constructor
               · omega
               · omega
             · constructor
               · omega
               · omega)
      · obtain ⟨hwb, _⟩ := hplain hmem
        rw [hwb, hdk_bx, mem_sortPts] at hp
        exact hkm p hp

/-! ### The visited index -/

theorem lookupV_cons_self (e : Key × String) (v : Visited) : lookupV (e :: v) e.1 = some e.2 := by
  rw [lookupV, List.find?_cons_of_pos _ (by simp)]
  simp

theorem lookupV_cons_ne {e : Key × String} {v : Visited} {k : Key} (h : ¬e.1 = k) :
    lookupV (e :: v) k = lookupV v k := by
  rw [lookupV, List.find?_cons_of_neg _ (by simp [h]), lookupV]

theorem lookupV_isSome_iff (v : Visited) (k : Key) :
    (lookupV v k).isSome = true ↔ k ∈ v.map Prod.fst := by
  induction v with
  | nil => simp [lookupV]
  | cons e v ih =>
    by_cases he : e.1 = k
    · subst he
      rw [lookupV_cons_self]
      simp
    · rw [lookupV_cons_ne he, List.map_cons]
      simp only [List.mem_cons, ih]
      constructor
      · exact Or.inr
      · rintro (h | h)
        · exact absurd h.symm he
        · exact h

theorem lookupV_of_mem {v : Visited} {k : Key} {p : String}
    (hnd : (v.map Prod.fst).Nodup) (hmem : (k, p) ∈ v) : lookupV v k = some p := by
  induction v with
  | nil => cases hmem
  | cons e v ih =>
    rw [List.map_cons, List.nodup_cons] at hnd
    rcases List.mem_cons.mp hmem with he | hm
    · subst he
      exact lookupV_cons_self (k, p) v
    · have hne : ¬e.1 = k := fun hek =>
        hnd.1 (hek ▸ List.mem_map.mpr ⟨(k, p), hm, rfl⟩)
      rw [lookupV_cons_ne hne]
      exact ih hnd.2 hm

theorem mem_of_lookupV {v : Visited} {k : Key} {p : String} (h : lookupV v k = some p) :
    (k, p) ∈ v := by
  induction v with
  | nil => simp [lookupV] at h
  | cons e v ih =>
    by_cases he : e.1 = k
    · subst he
      rw [lookupV_cons_self] at h
      injection h with h
      rw [← h]
      exact List.mem_cons_self e v
    · rw [lookupV_cons_ne he] at h
      exact List.mem_cons_of_mem e (ih h)

theorem visited_val_unique {v : Visited} (hnd : (v.map Prod.fst).Nodup) {k : Key}
    {p1 p2 : String} (h1 : (k, p1) ∈ v) (h2 : (k, p2) ∈ v) : p1 = p2 := by
  exact Option.some.inj ((lookupV_of_mem hnd h1).symm.trans (lookupV_of_mem hnd h2))

/-! ### The four direction blocks -/

theorem dirs_code : ∀ dc ∈ dirs, ∃ c, dc.2.data = [c] ∧ charDir c = dc.1 ∧ dc.2.length = 1 := by
  intro dc hdc
  fin_cases hdc
  · exact ⟨'W', rfl, by decide, rfl⟩
  · exact ⟨'A', rfl, by decide, rfl⟩
  · exact ⟨'S', rfl, by decide, rfl⟩
  · exact ⟨'D', rfl, by decide, rfl⟩

theorem charDir_mem_dirs (c : Char) : ∃ dc ∈ dirs, dc.1 = charDir c := by
  rcases charDir_unit c with h | h | h | h
  · exact ⟨((0, -1), "W"), by simp [dirs], h.symm⟩
  · exact ⟨((-1, 0), "A"), by simp [dirs], h.symm⟩
  · exact ⟨((0, 1), "S"), by simp [dirs], h.symm⟩
  · exact ⟨((1, 0), "D"), by simp [dirs], h.symm⟩

theorem expandDirs_cons (m : SokobanMap) (st : SokobanState) (p : String)
    (acc : Visited × List Key) (dc : Pt × String) (ds : List (Pt × String)) :
    expandDirs m st p acc (dc :: ds) =
      match expandDir m st p acc dc with
      | Sum.inl s => Sum.inl s
      | Sum.inr acc2 => expandDirs m st p acc2 ds := rfl

theorem processLayer_cons (m : SokobanMap) (visited : Visited) (next : List Key)
    (k : Key) (rest : List Key) :
    processLayer m (visited, next) (k :: rest) =
      match expandDirs m (deserializeK k) ((lookupV visited k).getD "") (visited, next) dirs with
      | Sum.inl s => Sum.inl s
      | Sum.inr acc2 => processLayer m acc2 rest := rfl

theorem kpath_extend {m : SokobanMap} {k0 k : Key} {p : String} {dc : Pt × String}
    (hdc : dc ∈ dirs) (hpath : kpath m k0 p.data = some k) {k2 : Key}
    (hstep : kstep m k dc.1 = some k2) :
    kpath m k0 (p ++ dc.2).data = some k2 ∧ (p ++ dc.2).length = p.length + 1 := by
  obtain ⟨c, hcdata, hcd, hclen⟩ := dirs_code dc hdc
  constructor
  · have hdata : (p ++ dc.2).data = p.data ++ [c] := by
      rw [String.data_append, hcdata]
    rw [hdata, kpath_snoc, hpath]
    simp only [Option.some_bind]
    rw [hcd]
    exact hstep
  · rw [String.length_append, hclen]

/-- The full specification of the four per-direction blocks run from a visited
entry `(k, p)` of the layer being expanded: an early `Sum.inl` return is a
complete key one step past the layer, and a `Sum.inr` return extends the
accumulator by fresh layer-`i+1` entries, preserves the visited invariant and
records a successor for every direction processed. -/
theorem expandDirs_spec (m : SokobanMap) (k0 : Key) (i : Nat) :
    ∀ (ds : List (Pt × String)) (visited : Visited) (next : List Key) (k : Key) (p : String),
    (∀ dc ∈ ds, dc ∈ dirs) →
    VisInv m k0 visited next i →
    (k, p) ∈ visited → p.length = i →
    (∀ res, expandDirs m (deserializeK k) p (visited, next) ds = Sum.inl res →
      res.length = i + 1 ∧ ∃ k2, kpath m k0 res.data = some k2 ∧ kcomplete m k2 = true) ∧
    (∀ v2 nx2, expandDirs m (deserializeK k) p (visited, next) ds = Sum.inr (v2, nx2) →
      (∃ dl, v2 = visited ++ dl ∧ nx2 = next ++ dl.map Prod.fst ∧
        ∀ e ∈ dl, e.2.length = i + 1) ∧
      VisInv m k0 v2 nx2 i ∧
      ∀ dc ∈ ds, ∀ k2, kstep m k dc.1 = some k2 →
        ∃ p2, (k2, p2) ∈ v2 ∧ p2.length ≤ i + 1) := by
  intro ds
  induction ds with
  | nil =>
    intro visited next k p _ hinv hk hp
    constructor
    · intro res hres
      cases hres
    · intro v2 nx2 h
      simp only [expandDirs, Sum.inr.injEq, Prod.mk.injEq] at h
      obtain ⟨rfl, rfl⟩ := h
      exact ⟨⟨[], by simp, by simp, by simp⟩, hinv,
        fun dc hdc => absurd hdc (List.not_mem_nil dc)⟩
  | cons dc ds ih =>
    intro visited next k p hds hinv hk hp
    have hdcd : dc ∈ dirs := hds dc (List.mem_cons_self dc ds)
    have hds2 : ∀ x ∈ ds, x ∈ dirs := fun x hx => hds x (List.mem_cons_of_mem dc hx)
    rcases hw : nextState m (deserializeK k) dc.1 with _ | w
    · have hexp : expandDir m (deserializeK k) p (visited, next) dc =
          Sum.inr (visited, next) := by
        simp only [expandDir, hw]
      have hstep0 : kstep m k dc.1 = none := by
        simp [kstep, hw]
      rw [expandDirs_cons, hexp]
      obtain ⟨IH1, IH2⟩ := ih visited next k p hds2 hinv hk hp
      refine ⟨IH1, fun v2 nx2 h => ?_⟩
      obtain ⟨hdl, hvinv, hcov⟩ := IH2 v2 nx2 h
      refine ⟨hdl, hvinv, fun x hx k2 hk2 => ?_⟩
      rcases List.mem_cons.mp hx with rfl | hxm
      · rw [hstep0] at hk2
        cases hk2
      · exact hcov x hxm k2 hk2
    · have hkw : kstep m k dc.1 = some (serializeK w) := by
        simp [kstep, hw]
      have hcw : coherent w := nextState_coherent (deserializeK_coherent k) hw
      by_cases hvis : (lookupV visited (serializeK w)).isSome = true
      · have hexp : expandDir m (deserializeK k) p (visited, next) dc =
            Sum.inr (visited, next) := by
          simp only [expandDir, hw]
          rw [if_pos hvis]
        rw [expandDirs_cons, hexp]
        obtain ⟨IH1, IH2⟩ := ih visited next k p hds2 hinv hk hp
        refine ⟨IH1, fun v2 nx2 h => ?_⟩
        obtain ⟨⟨dl, hv2, hnx2, hdlen⟩, hvinv, hcov⟩ := IH2 v2 nx2 h
        refine ⟨⟨dl, hv2, hnx2, hdlen⟩, hvinv, fun x hx k2 hk2 => ?_⟩
        rcases List.mem_cons.mp hx with rfl | hxm
        · rw [hkw] at hk2
          injection hk2 with hk2
          subst hk2
          obtain ⟨e, he, hefst⟩ := List.mem_map.mp ((lookupV_isSome_iff _ _).mp hvis)
          have he2 : (serializeK w, e.2) ∈ visited := by
            rw [← hefst]
            exact he
          exact ⟨e.2, hv2 ▸ List.mem_append_left dl he2,
            hinv.len_le (serializeK w, e.2) he2⟩
        · exact hcov x hxm k2 hk2
      · by_cases hcomp : isComplete m w = true
        · have hexp : expandDir m (deserializeK k) p (visited, next) dc =
              Sum.inl (p ++ dc.2) := by
            simp only [expandDir, hw]
            rw [if_neg hvis, if_pos hcomp]
          rw [expandDirs_cons, hexp]
          constructor
          · intro res hres
            injection hres with hres
            subst hres
            have hpath0 : kpath m k0 p.data = some k := hinv.path_ok (k, p) hk
            obtain ⟨hpath2, hlen2⟩ := kpath_extend hdcd hpath0 hkw
            refine ⟨by rw [hlen2, hp], serializeK w, hpath2, ?_⟩
            rw [kcomplete_serializeK hcw]
            exact hcomp
          · intro v2 nx2 h
            cases h
        · have hexp : expandDir m (deserializeK k) p (visited, next) dc =
              Sum.inr (visited ++ [(serializeK w, p ++ dc.2)], next ++ [serializeK w]) := by
            simp only [expandDir, hw]
            rw [if_neg hvis, if_neg hcomp]
          rw [expandDirs_cons, hexp]
          have hfresh : serializeK w ∉ visited.map Prod.fst := fun hmem =>
            hvis ((lookupV_isSome_iff _ _).mpr hmem)
          have hpath0 : kpath m k0 p.data = some k := hinv.path_ok (k, p) hk
          obtain ⟨hpath2, hlen2⟩ := kpath_extend hdcd hpath0 hkw
          obtain ⟨c, hcdata, hcd, _⟩ := dirs_code dc hdcd
          have hkwc : kstep m k (charDir c) = some (serializeK w) := by
            rw [hcd]
            exact hkw
          have hinv2 : VisInv m k0 (visited ++ [(serializeK w, p ++ dc.2)])
              (next ++ [serializeK w]) i := by
            refine ⟨?_, ?_, ?_, ?_, ?_, ?_, ?_, ?_, ?_⟩
            · intro e he
              rcases List.mem_append.mp he with he | he
              · exact hinv.univ e he
              · have he2 : e = (serializeK w, p ++ dc.2) := by simpa using he
                subst he2
                exact kstep_mem_keyUniv (hinv.univ (k, p) hk) c hkwc
            · rw [List.map_append, List.nodup_append]
              exact ⟨hinv.nodup, by simp, by
                simp only [List.map_cons, List.map_nil, List.disjoint_singleton]
                exact hfresh⟩
            · exact List.mem_append_left _ hinv.init_mem
            · intro e he
              rcases List.mem_append.mp he with he | he
              · exact hinv.path_ok e he
              · have he2 : e = (serializeK w, p ++ dc.2) := by simpa using he
                subst he2
                exact hpath2
            · intro e he
              rcases List.mem_append.mp he with he | he
              · exact hinv.not_complete e he
              · have he2 : e = (serializeK w, p ++ dc.2) := by simpa using he
                subst he2
                rw [kcomplete_serializeK hcw]
                exact Bool.eq_false_iff.mpr hcomp
            · intro e he
              rcases List.mem_append.mp he with he | he
              · exact hinv.len_le e he
              · have he2 : e = (serializeK w, p ++ dc.2) := by simpa using he
                subst he2
                show (p ++ dc.2).length ≤ i + 1
                rw [hlen2, hp]
            · intro x hx
              rcases List.mem_append.mp hx with hx | hx
              · obtain ⟨p2, hp2, hl2⟩ := hinv.next_sub x hx
                exact ⟨p2, List.mem_append_left _ hp2, hl2⟩
              · have hx2 : x = serializeK w := by simpa using hx
                subst hx2
                exact ⟨p ++ dc.2, List.mem_append_right _ (by simp), by rw [hlen2, hp]⟩
            · intro e he hel
              rcases List.mem_append.mp he with he | he
              · exact List.mem_append_left _ (hinv.next_layer e he hel)
              · have he2 : e = (serializeK w, p ++ dc.2) := by simpa using he
                subst he2
                exact List.mem_append_right _ (by simp)
            · rw [List.nodup_append]
              refine ⟨hinv.next_nodup, by simp, ?_⟩
              rw [List.disjoint_singleton]
              intro hmem
              obtain ⟨p2, hp2, _⟩ := hinv.next_sub _ hmem
              exact hfresh (List.mem_map.mpr ⟨(serializeK w, p2), hp2, rfl⟩)
          have hk2 : (k, p) ∈ visited ++ [(serializeK w, p ++ dc.2)] :=
            List.mem_append_left _ hk
          obtain ⟨IH1, IH2⟩ := ih (visited ++ [(serializeK w, p ++ dc.2)])
            (next ++ [serializeK w]) k p hds2 hinv2 hk2 hp
          refine ⟨IH1, fun v2 nx2 h => ?_⟩
          obtain ⟨⟨dl, hv2, hnx2, hdlen⟩, hvinv, hcov⟩ := IH2 v2 nx2 h
          refine ⟨⟨(serializeK w, p ++ dc.2) :: dl, ?_, ?_, ?_⟩, hvinv,
            fun x hx k2 hk2x => ?_⟩
          · rw [hv2, List.append_assoc, List.singleton_append]
          · rw [hnx2, List.append_assoc, List.singleton_append, List.map_cons]
          · intro e he
            rcases List.mem_cons.mp he with rfl | hem
            · show (p ++ dc.2).length = i + 1
              rw [hlen2, hp]
            · exact hdlen e hem
          · rcases List.mem_cons.mp hx with rfl | hxm
            · rw [hkw] at hk2x
              injection hk2x with hk2x
              subst hk2x
              refine ⟨p ++ x.2, ?_, by rw [hlen2, hp]⟩
              rw [hv2]
              exact List.mem_append_left _ (List.mem_append_right _ (by simp))
            · exact hcov x hxm k2 hk2x

/-- The layer loop threads the layer invariant: an early return is a complete
key at distance `i + 1`, and a normal return extends the accumulator and
leaves the invariant with no unprocessed frontier. -/
theorem processLayer_spec (m : SokobanMap) (k0 : Key) (i : Nat) :
    ∀ (rest : List Key) (visited : Visited) (next : List Key),
    LayerInv m k0 visited next rest i →
    (∀ res, processLayer m (visited, next) rest = Sum.inl res →
      res.length = i + 1 ∧ ∃ k2, kpath m k0 res.data = some k2 ∧ kcomplete m k2 = true) ∧
    (∀ v2 nx2, processLayer m (visited, next) rest = Sum.inr (v2, nx2) →
      (∃ dl, v2 = visited ++ dl ∧ nx2 = next ++ dl.map Prod.fst) ∧
      LayerInv m k0 v2 nx2 [] i) := by
  intro rest
  induction rest with
  | nil =>
    intro visited next hinv
    constructor
    · intro res hres
      cases hres
    · intro v2 nx2 h
      simp only [processLayer, Sum.inr.injEq, Prod.mk.injEq] at h
      obtain ⟨rfl, rfl⟩ := h
      exact ⟨⟨[], by simp, by simp⟩, hinv⟩
  | cons kk rest ih =>
    intro visited next hinv
    obtain ⟨p, hkp, hplen⟩ := hinv.rest_sub kk (List.mem_cons_self kk rest)
    have hlk : lookupV visited kk = some p := lookupV_of_mem hinv.vis.nodup hkp
    have hget : (lookupV visited kk).getD "" = p := by
      rw [hlk]
      rfl
    obtain ⟨E1, E2⟩ := expandDirs_spec m k0 i dirs visited next kk p (fun _ h => h)
      hinv.vis hkp hplen
    rcases hE : expandDirs m (deserializeK kk) p (visited, next) dirs with res | ⟨v', nx'⟩
    · obtain ⟨hrl, hkc⟩ := E1 res hE
      constructor
      · intro res2 hres2
        rw [processLayer_cons, hget] at hres2
        simp only [hE, Sum.inl.injEq] at hres2
        subst hres2
        exact ⟨hrl, hkc⟩
      · intro v2 nx2 h
        rw [processLayer_cons, hget] at h
        simp only [hE] at h
        cases h
    · obtain ⟨⟨dl, hv2a, hnx2a, hdlen⟩, hvinv2, hcov⟩ := E2 v' nx' hE
      have hinv2 : LayerInv m k0 v' nx' rest i := by
        refine ⟨hvinv2, ?_, ?_, ?_⟩
        · intro x hx
          obtain ⟨p2, hp2, hl2⟩ := hinv.rest_sub x (List.mem_cons_of_mem kk hx)
          exact ⟨p2, hv2a ▸ List.mem_append_left dl hp2, hl2⟩
        · exact (List.nodup_cons.mp hinv.rest_nodup).2
        · intro e he hcond x hxdirs k2 hk2
          rcases List.mem_append.mp (hv2a ▸ he) with hev | hed
          · by_cases hekk : e.1 = kk
            · have he2 : (kk, e.2) ∈ visited := by
                rw [← hekk]
                exact hev
              have hep : e.2 = p := visited_val_unique hinv.vis.nodup he2 hkp
              have hk2b : kstep m kk x.1 = some k2 := by
                rw [← hekk]
                exact hk2
              obtain ⟨p2, hp2, hl2⟩ := hcov x hxdirs k2 hk2b
              refine ⟨p2, hp2, ?_⟩
              rw [hep, hplen]
              exact hl2
            · have hcond2 : e.2.length < i ∨ (e.2.length = i ∧ e.1 ∉ kk :: rest) := by
                rcases hcond with h | ⟨h1, h2⟩
                · exact Or.inl h
                · refine Or.inr ⟨h1, fun hmem => ?_⟩
                  rcases List.mem_cons.mp hmem with h3 | h3
                  · exact hekk h3
                  · exact h2 h3
              obtain ⟨p2, hp2, hl2⟩ := hinv.closed e hev hcond2 x hxdirs k2 hk2
              exact ⟨p2, hv2a ▸ List.mem_append_left dl hp2, hl2⟩
          · have := hdlen e hed
            rcases hcond with h | ⟨h1, _⟩ <;> omega
      obtain ⟨IH1, IH2⟩ := ih v' nx' hinv2
      constructor
      · intro res2 hres2
        rw [processLayer_cons, hget] at hres2
        simp only [hE] at hres2
        exact IH1 res2 hres2
      · intro v2 nx2 h
        rw [processLayer_cons, hget] at h
        simp only [hE] at h
        obtain ⟨⟨dl2, hv2b, hnx2b⟩, hfin⟩ := IH2 v2 nx2 h
        refine ⟨⟨dl ++ dl2, ?_, ?_⟩, hfin⟩
        · rw [hv2b, hv2a, List.append_assoc]
        · rw [hnx2b, hnx2a, List.map_append, List.append_assoc]

theorem layerInv_start {m : SokobanMap} {k0 : Key} {visited : Visited} {current : List Key}
    {i : Nat} (hinv : BfsInv m k0 visited current i) :
    LayerInv m k0 visited [] current i := by
  refine ⟨⟨hinv.univ, hinv.nodup, hinv.init_mem, hinv.path_ok, hinv.not_complete,
    fun e he => Nat.le_succ_of_le (hinv.len_le e he),
    fun x hx => absurd hx (List.not_mem_nil x),
    fun e he hlen => ?_, List.nodup_nil⟩,
    hinv.cur_sub, hinv.cur_nodup, ?_⟩
  · have := hinv.len_le e he
    omega
  · intro e he hcond dc hdc k2 hk2
    rcases hcond with h | ⟨h1, h2⟩
    · exact hinv.closed e he h dc hdc k2 hk2
    · exact absurd (hinv.layer e he h1) h2

theorem bfsInv_end {m : SokobanMap} {k0 : Key} {visited : Visited} {next : List Key}
    {i : Nat} (hinv : LayerInv m k0 visited next [] i) :
    BfsInv m k0 visited next (i + 1) := by
  refine ⟨hinv.vis.univ, hinv.vis.nodup, hinv.vis.init_mem, hinv.vis.path_ok,
    hinv.vis.not_complete, hinv.vis.len_le, hinv.vis.next_layer, hinv.vis.next_sub,
    hinv.vis.next_nodup, ?_⟩
  intro e he hlen dc hdc k2 hk2
  refine hinv.closed e he ?_ dc hdc k2 hk2
  rcases Nat.lt_or_ge e.2.length i with h | h
  · exact Or.inl h
  · exact Or.inr ⟨by omega, List.not_mem_nil e.1⟩

/-- Any key reachable in at most `i` moves is filed in a visited index that is
successor-closed below length `i`, with a path no longer than the reaching
one. -/
theorem reach_in_visited {m : SokobanMap} {k0 : Key} {visited : Visited} {i : Nat}
    (hinit : (k0, "") ∈ visited)
    (hclosed : ∀ e ∈ visited, e.2.length < i →
      ∀ dc ∈ dirs, ∀ k2, kstep m e.1 dc.1 = some k2 →
        ∃ p2, (k2, p2) ∈ visited ∧ p2.length ≤ e.2.length + 1) :
    ∀ n, n ≤ i → ∀ cs : List Char, cs.length = n → ∀ k2, kpath m k0 cs = some k2 →
      ∃ p2, (k2, p2) ∈ visited ∧ p2.length ≤ n := by
  intro n
  induction n with
  | zero =>
    intro _ cs hcs k2 hk2
    have hnil : cs = [] := List.length_eq_zero.mp hcs
    subst hnil
    injection hk2 with hk2
    subst hk2
    exact ⟨"", hinit, by simp⟩
  | succ n ihn =>
    intro hni cs hcs k2 hk2
    rcases List.eq_nil_or_concat cs with rfl | ⟨cs1, c, rfl⟩
    · simp at hcs
    · rw [List.concat_eq_append] at hcs hk2
      have hl1 : cs1.length = n := by
        rw [List.length_append, List.length_singleton] at hcs
        omega
      rw [kpath_snoc] at hk2
      rcases hmid : kpath m k0 cs1 with _ | k1
      · rw [hmid] at hk2
        cases hk2
      · rw [hmid] at hk2
        simp only [Option.some_bind] at hk2
        obtain ⟨p1, hp1, hl1b⟩ := ihn (Nat.le_of_succ_le hni) cs1 hl1 k1 hmid
        obtain ⟨dc, hdc, hdceq⟩ := charDir_mem_dirs c
        have hk2b : kstep m k1 dc.1 = some k2 := by
          rw [hdceq]
          exact hk2
        have hlt : p1.length < i := by omega
        obtain ⟨p2, hp2, hl2⟩ :=
          hclosed (k1, p1) hp1 (show (k1, p1).2.length < i from hlt) dc hdc k2 hk2b
        have hl2b : p2.length ≤ p1.length + 1 := hl2
        exact ⟨p2, hp2, by omega⟩

/-- Any reachable key at all is filed in a fully successor-closed visited
index. -/
theorem reach_in_visited_full {m : SokobanMap} {k0 : Key} {visited : Visited}
    (hinit : (k0, "") ∈ visited)
    (hclosed : ∀ e ∈ visited, ∀ dc ∈ dirs, ∀ k2, kstep m e.1 dc.1 = some k2 →
      ∃ p2, (k2, p2) ∈ visited) :
    ∀ (cs : List Char) (k2 : Key), kpath m k0 cs = some k2 → ∃ p2, (k2, p2) ∈ visited := by
  intro cs
  induction cs using List.reverseRecOn with
  | nil =>
    intro k2 hk2
    injection hk2 with hk2
    subst hk2
    exact ⟨"", hinit⟩
  | append_singleton cs c ihc =>
    intro k2 hk2
    rw [kpath_snoc] at hk2
    rcases hmid : kpath m k0 cs with _ | k1
    · rw [hmid] at hk2
      cases hk2
    · rw [hmid] at hk2
      simp only [Option.some_bind] at hk2
      obtain ⟨p1, hp1⟩ := ihc k1 hmid
      obtain ⟨dc, hdc, hdceq⟩ := charDir_mem_dirs c
      refine hclosed (k1, p1) hp1 dc hdc k2 ?_
      rw [hdceq]
      exact hk2

theorem visited_length_le {m : SokobanMap} {k0 : Key} {visited : Visited}
    (hnd : (visited.map Prod.fst).Nodup) (huniv : ∀ e ∈ visited, e.1 ∈ keyUniv m k0) :
    visited.length ≤ (keyUniv m k0).card := by
  have h1 : visited.length = (visited.map Prod.fst).length := (List.length_map _ _).symm
  rw [h1, ← List.toFinset_card_of_nodup hnd]
  apply Finset.card_le_card
  intro x hx
  rw [List.mem_toFinset] at hx
  obtain ⟨e, he, rfl⟩ := List.mem_map.mp hx
  exact huniv e he

theorem bfsLoop_succ (m : SokobanMap) (fuel : Nat) (visited : Visited) (current : List Key) :
    bfsLoop m (fuel + 1) visited current =
      if current.isEmpty then some none
      else match processLayer m (visited, []) current with
        | Sum.inl s => some (some s)
        | Sum.inr (v2, next) => bfsLoop m fuel v2 next := rfl

/-- The fuel `solveFuel` provides is never exhausted: each non-terminating
layer files at least one fresh key of the finite key universe. -/
theorem bfsLoop_progress (m : SokobanMap) (k0 : Key) :
    ∀ (fuel : Nat) (visited : Visited) (current : List Key) (i : Nat),
    BfsInv m k0 visited current i →
    (keyUniv m k0).card + 2 ≤ fuel + visited.length →
    bfsLoop m fuel visited current ≠ none := by
  intro fuel
  induction fuel with
  | zero =>
    intro visited current i hinv hfuel
    have hlen := visited_length_le hinv.nodup hinv.univ
    omega
  | succ fuel ihf =>
    intro visited current i hinv hfuel
    rw [bfsLoop_succ]
    by_cases hcur : current.isEmpty = true
    · rw [if_pos hcur]
      simp
    · rw [if_neg hcur]
      have hlay : LayerInv m k0 visited [] current i := layerInv_start hinv
      obtain ⟨P1, P2⟩ := processLayer_spec m k0 i current visited [] hlay
      rcases hP : processLayer m (visited, []) current with res | ⟨v2, nx2⟩
      · simp
      · obtain ⟨⟨dl, hv2, hnx2⟩, hfin⟩ := P2 v2 nx2 hP
        have hbfs2 : BfsInv m k0 v2 nx2 (i + 1) := bfsInv_end hfin
        cases dl with
        | nil =>
          have hv2e : v2 = visited := by simpa using hv2
          have hnx2e : nx2 = [] := by simpa using hnx2
          subst hv2e
          subst hnx2e
          have hlen := visited_length_le hinv.nodup hinv.univ
          rcases fuel with _ | f2
          · omega
          · show bfsLoop m (f2 + 1) v2 [] ≠ none
            rw [bfsLoop_succ]
            simp
        | cons e dl2 =>
          have hlen2 : v2.length = visited.length + (e :: dl2).length := by
            rw [hv2, List.length_append]
          apply ihf v2 nx2 (i + 1) hbfs2
          rw [hlen2, List.length_cons]
          omega

/-- Soundness, minimality and exhaustion of the BFS loop, threaded through the
between-layer invariant. -/
theorem bfsLoop_sound (m : SokobanMap) (k0 : Key) :
    ∀ (fuel : Nat) (visited : Visited) (current : List Key) (i : Nat),
    BfsInv m k0 visited current i →
    (∀ str, bfsLoop m fuel visited current = some (some str) →
      (∃ kc, kpath m k0 str.data = some kc ∧ kcomplete m kc = true) ∧
      ∀ cs kc, kpath m k0 cs = some kc → kcomplete m kc = true → str.length ≤ cs.length) ∧
    (bfsLoop m fuel visited current = some none →
      ∀ cs kc, kpath m k0 cs = some kc → kcomplete m kc ≠ true) := by
  intro fuel
  induction fuel with
  | zero =>
    intro visited current i _
    constructor
    · intro str h
      simp [bfsLoop] at h
    · intro h
      simp [bfsLoop] at h
  | succ fuel ihf =>
    intro visited current i hinv
    by_cases hcur : current.isEmpty = true
    · have hred : bfsLoop m (fuel + 1) visited current = some none := by
        rw [bfsLoop_succ, if_pos hcur]
      constructor
      · intro str h
        rw [hred] at h
        injection h with h
        cases h
      · intro _ cs kc hpath hcomp
        have hcure : current = [] := by
          simpa [List.isEmpty_iff] using hcur
        have hall : ∀ e ∈ visited, e.2.length < i := by
          intro e he
          have hle := hinv.len_le e he
          rcases Nat.lt_or_ge e.2.length i with h | h
          · exact h
          · have heq : e.2.length = i := Nat.le_antisymm hle h
            have hmem := hinv.layer e he heq
            rw [hcure] at hmem
            cases hmem
        have hfull : ∀ e ∈ visited, ∀ dc ∈ dirs, ∀ k2, kstep m e.1 dc.1 = some k2 →
            ∃ p2, (k2, p2) ∈ visited := by
          intro e he dc hdc k2 hk2
          obtain ⟨p2, hp2, _⟩ := hinv.closed e he (hall e he) dc hdc k2 hk2
          exact ⟨p2, hp2⟩
        obtain ⟨p2, hp2⟩ := reach_in_visited_full hinv.init_mem hfull cs kc hpath
        have hf := hinv.not_complete (kc, p2) hp2
        rw [hcomp] at hf
        cases hf
    · have hlay : LayerInv m k0 visited [] current i := layerInv_start hinv
      obtain ⟨P1, P2⟩ := processLayer_spec m k0 i current visited [] hlay
      rcases hP : processLayer m (visited, []) current with res | ⟨v2, nx2⟩
      · have hred : bfsLoop m (fuel + 1) visited current = some (some res) := by
          rw [bfsLoop_succ, if_neg hcur, hP]
        obtain ⟨hrl, kc, hkpath, hkc⟩ := P1 res hP
        constructor
        · intro str h
          rw [hred] at h
          injection h with h
          injection h with h
          subst h
          refine ⟨⟨kc, hkpath, hkc⟩, ?_⟩
          intro cs kc2 hcs hkc2
          by_contra hlt
          push_neg at hlt
          have hcsle : cs.length ≤ i := by omega
          obtain ⟨p2, hp2, _⟩ := reach_in_visited hinv.init_mem hinv.closed
            cs.length hcsle cs rfl kc2 hcs
          have hf := hinv.not_complete (kc2, p2) hp2
          rw [hkc2] at hf
          cases hf
        · intro h
          rw [hred] at h
          injection h with h
          cases h
      · obtain ⟨_, hfin⟩ := P2 v2 nx2 hP
        have hred : bfsLoop m (fuel + 1) visited current = bfsLoop m fuel v2 nx2 := by
          rw [bfsLoop_succ, if_neg hcur, hP]
        have hbfs2 : BfsInv m k0 v2 nx2 (i + 1) := bfsInv_end hfin
        obtain ⟨IH1, IH2⟩ := ihf v2 nx2 (i + 1) hbfs2
        exact ⟨fun str h => IH1 str (hred ▸ h), fun h => IH2 (hred ▸ h)⟩

/-- Any state a successful parse returns has its box set and box list in
membership agreement (the set is built from the same scan as the list). -/
theorem parse_coherent (input : String) :
    ∀ (m : SokobanMap) (s : SokobanState), parseSokoban input = some (m, s) → coherent s := by
  simp only [parseSokoban]
  by_cases hE : (rowsOf input).isEmpty
  · rw [if_pos hE]
    intro m s h
    cases h
  · rw [if_neg hE]
    by_cases hrag : ((rowsOf input).any fun r =>
        decide (r.length ≠ ((rowsOf input).headD "").length)) = true
    · rw [if_pos hrag]
      intro m s h
      cases h
    · rw [if_neg hrag]
      rcases Option.eq_none_or_eq_some
          (scanRows 0 ((rowsOf input).map String.data) ⟨[], [], none, []⟩) with hS | ⟨acc, hS⟩
      · simp only [hS]
        intro m s h
        cases h
      · simp only [hS]
        rcases Option.eq_none_or_eq_some acc.player with hP | ⟨pl, hP⟩
        · simp only [hP]
          intro m s h
          cases h
        · simp only [hP]
          by_cases hbx : (acc.boxes.any fun p =>
              !hasPt (floodReach ((rowsOf input).headD "").length (rowsOf input).length
                acc.walls pl) p) = true
          · rw [if_pos hbx]
            intro m s h
            cases h
          · rw [if_neg hbx]
            by_cases hgl : (acc.goals.any fun p =>
                !hasPt (floodReach ((rowsOf input).headD "").length (rowsOf input).length
                  acc.walls pl) p) = true
            · rw [if_pos hgl]
              intro m s h
              cases h
            · rw [if_neg hgl]
              intro m s h
              injection h with h2
              injection h2 with hm hst
              subst hst
              intro p
              exact mem_sortPts.symm

/-- The invariant holds at the start of the search, provided the initial key is
not complete (the untouched initial state is never tested, so a complete
initial key would already break the invariant — see claims C1 and C6). -/
theorem bfsInv_init (m : SokobanMap) (k0 : Key) (hnc : kcomplete m k0 = false) :
    BfsInv m k0 [(k0, "")] [k0] 0 := by
  refine ⟨?_, by simp, by simp, ?_, ?_, ?_, ?_, ?_, by simp, ?_⟩
  · intro e he
    have he2 : e = (k0, "") := by simpa using he
    subst he2
    exact init_mem_keyUniv m k0
  · intro e he
    have he2 : e = (k0, "") := by simpa using he
    subst he2
    rfl
  · intro e he
    have he2 : e = (k0, "") := by simpa using he
    subst he2
    exact hnc
  · intro e he
    have he2 : e = (k0, "") := by simpa using he
    subst he2
    exact Nat.le_refl 0
  · intro e he _
    have he2 : e = (k0, "") := by simpa using he
    subst he2
    simp
  · intro x hx
    have hx2 : x = k0 := by simpa using hx
    subst hx2
    exact ⟨"", by simp, rfl⟩
  · intro e _ hlt
    exact absurd hlt (Nat.not_lt_zero _)

/-- `solve` at the state level, for a coherent, not-yet-complete initial
state: a returned string replays to a complete state and is no longer than any
completing move sequence, and `none` means no completing sequence exists. -/
theorem solve_spec (m : SokobanMap) (init : SokobanState) (hc : coherent init)
    (hnc : isComplete m init = false) :
    (∀ str, solve m init = some str →
      (∃ t, replay m init str.data = some t ∧ isComplete m t = true) ∧
      ∀ cs t, replay m init cs = some t → isComplete m t = true → str.length ≤ cs.length) ∧
    (solve m init = none →
      ∀ cs t, replay m init cs = some t → isComplete m t ≠ true) := by
  have hnck : kcomplete m (serializeK init) = false := by
    rw [kcomplete_serializeK hc]
    exact hnc
  have hinv := bfsInv_init m (serializeK init) hnck
  obtain ⟨S1, S2⟩ := bfsLoop_sound m (serializeK init) (solveFuel m (serializeK init))
    [(serializeK init, "")] [serializeK init] 0 hinv
  have hprog := bfsLoop_progress m (serializeK init) (solveFuel m (serializeK init))
    [(serializeK init, "")] [serializeK init] 0 hinv (by
      simp only [solveFuel, List.length_cons, List.length_nil]
      omega)
  have hbr : ∀ cs : List Char,
      optRel (fun t k2 => coherent t ∧ SEquiv t (deserializeK k2))
        (replay m init cs) (kpath m (serializeK init) cs) :=
    fun cs => replay_kpath m cs init (serializeK init) hc (sequiv_deserializeK hc)
  constructor
  · intro str hstr
    have hb : bfsLoop m (solveFuel m (serializeK init))
        [(serializeK init, "")] [serializeK init] = some (some str) := by
      rcases hbb : bfsLoop m (solveFuel m (serializeK init))
          [(serializeK init, "")] [serializeK init] with _ | r
      · exact absurd hbb hprog
      · simp only [solve, hbb, Option.getD_some] at hstr
        rw [hstr]
    obtain ⟨⟨kc, hkpath, hkc⟩, hmin⟩ := S1 str hb
    constructor
    · have hcs := hbr str.data
      rcases hr : replay m init str.data with _ | t
      · rw [hr, hkpath] at hcs
        exact (optRel_none_some hcs).elim
      · rw [hr, hkpath] at hcs
        obtain ⟨_, hseq⟩ := optRel_some_some hcs
        refine ⟨t, rfl, ?_⟩
        rw [sequiv_isComplete hseq]
        exact hkc
    · intro cs t hre hcomp
      have hcs := hbr cs
      rcases hk : kpath m (serializeK init) cs with _ | kc2
      · rw [hre, hk] at hcs
        exact (optRel_some_none hcs).elim
      · rw [hre, hk] at hcs
        obtain ⟨_, hseq⟩ := optRel_some_some hcs
        refine hmin cs kc2 hk ?_
        show isComplete m (deserializeK kc2) = true
        rw [← sequiv_isComplete hseq]
        exact hcomp
  · intro hnone cs t hre hcomp
    have hb : bfsLoop m (solveFuel m (serializeK init))
        [(serializeK init, "")] [serializeK init] = some none := by
      rcases hbb : bfsLoop m (solveFuel m (serializeK init))
          [(serializeK init, "")] [serializeK init] with _ | r
      · exact absurd hbb hprog
      · simp only [solve, hbb, Option.getD_some] at hnone
        rw [hnone]
    have hcs := hbr cs
    rcases hk : kpath m (serializeK init) cs with _ | kc2
    · rw [hre, hk] at hcs
      exact (optRel_some_none hcs).elim
    · rw [hre, hk] at hcs
      obtain ⟨_, hseq⟩ := optRel_some_some hcs
      refine S2 hb cs kc2 hk ?_
      show isComplete m (deserializeK kc2) = true
      rw [← sequiv_isComplete hseq]
      exact hcomp

/-! ### Claims C1 and C6: the untouched initial state is never tested -/

/-- Claim C1 counterexample: a successfully parsed puzzle whose initial state
is already complete (no boxes) and whose player is walled in.  The empty move
sequence reaches a complete state, yet `solve` returns `none` (and not a
shortest solution string). -/
theorem c1_counterexample_initial_complete :
    parseSokoban "###\n#w#\n###" = some (mWalled, sWalled) ∧
      replay mWalled sWalled [] = some sWalled ∧
      isComplete mWalled sWalled = true ∧
      solve mWalled sWalled = none := by
  decide

/-- Claim C6 counterexample: on the walled-in complete puzzle a complete state
is reachable from the initial state (by the empty move sequence), yet `solve`
returns `none` — refuting the claimed equivalence as stated. -/
theorem c6_counterexample_reachable_completion_but_none :
    isComplete mWalled sWalled = true ∧
      (∃ cs t, replay mWalled sWalled cs = some t ∧ isComplete mWalled t = true) ∧
      solve mWalled sWalled = none :=
  ⟨by decide, ⟨[], sWalled, by decide, by decide⟩, by decide⟩

/-! ### Claim C9: the shape of returned paths and the zero-box behaviour -/

theorem hasPt_nil (q : Pt) : hasPt [] q = false := by
  simp [hasPt]

theorem isInvalid_no_boxSet (m : SokobanMap) (pl : Pt) (bs : List Pt) :
    isInvalid m ⟨pl, bs, []⟩ = false := by
  simp only [isInvalid]
  rw [List.any_eq_false]
  intro y _
  rw [Bool.not_eq_true, List.any_eq_false]
  intro x _
  simp [offGoalBoxLib, hasPt]

/-- On a zero-box board `nextState` is a plain player step guarded only by the
bounds and wall checks (the deadlock check trivially passes). -/
theorem nextState_no_boxes (m : SokobanMap) (pl d : Pt) :
    nextState m ⟨pl, [], []⟩ d =
      if legalStep m pl d then some ⟨(pl.1 + d.1, pl.2 + d.2), [], []⟩ else none := by
  by_cases hA : (decide (pl.1 + d.1 < 0) || decide ((m.width : Int) ≤ pl.1 + d.1) ||
      decide (pl.2 + d.2 < 0) || decide ((m.height : Int) ≤ pl.2 + d.2)) = true
  · simp [nextState, legalStep, hA]
  · by_cases hW : hasPt m.wallSet (pl.1 + d.1, pl.2 + d.2) = true
    · simp [nextState, legalStep, hA, hW]
    · simp [nextState, legalStep, hA, hW, hasPt_nil, isInvalid_no_boxSet]

theorem expandDir_inl {m : SokobanMap} {st : SokobanState} {p : String}
    {acc : Visited × List Key} {dc : Pt × String} {res : String}
    (h : expandDir m st p acc dc = Sum.inl res) : res = p ++ dc.2 := by
  rcases hw : nextState m st dc.1 with _ | w
  · simp only [expandDir, hw] at h
    cases h
  · simp only [expandDir, hw] at h
    by_cases hvis : (lookupV acc.1 (serializeK w)).isSome = true
    · rw [if_pos hvis] at h
      cases h
    · rw [if_neg hvis] at h
      by_cases hcomp : isComplete m w = true
      · rw [if_pos hcomp] at h
        injection h with h
        exact h.symm
      · rw [if_neg hcomp] at h
        cases h

theorem expandDirs_inl_shape (m : SokobanMap) :
    ∀ (ds : List (Pt × String)) (st : SokobanState) (p : String)
      (acc : Visited × List Key) (res : String),
    (∀ dc ∈ ds, dc ∈ dirs) →
    expandDirs m st p acc ds = Sum.inl res → ∃ dc ∈ dirs, res = p ++ dc.2 := by
  intro ds
  induction ds with
  | nil =>
    intro st p acc res _ h
    cases h
  | cons dc ds ih =>
    intro st p acc res hds h
    have hds2 : ∀ x ∈ ds, x ∈ dirs := fun x hx => hds x (List.mem_cons_of_mem dc hx)
    rw [expandDirs_cons] at h
    rcases hE : expandDir m st p acc dc with s | acc2
    · simp only [hE, Sum.inl.injEq] at h
      exact ⟨dc, hds dc (List.mem_cons_self dc ds), h ▸ expandDir_inl hE⟩
    · simp only [hE] at h
      exact ih st p acc2 res hds2 h

theorem processLayer_inl (m : SokobanMap) :
    ∀ (rest : List Key) (acc : Visited × List Key) (res : String),
    processLayer m acc rest = Sum.inl res → ∃ p dc, dc ∈ dirs ∧ res = p ++ dc.2 := by
  intro rest
  induction rest with
  | nil =>
    intro acc res h
    cases h
  | cons kk rest ih =>
    intro acc res h
    rcases acc with ⟨v, nx⟩
    rw [processLayer_cons] at h
    rcases hE : expandDirs m (deserializeK kk) ((lookupV v kk).getD "") (v, nx) dirs
      with s | acc2
    · simp only [hE, Sum.inl.injEq] at h
      obtain ⟨dc, hdc, hres⟩ := expandDirs_inl_shape m dirs (deserializeK kk)
        ((lookupV v kk).getD "") (v, nx) s (fun _ h2 => h2) hE
      exact ⟨(lookupV v kk).getD "", dc, hdc, h ▸ hres⟩
    · simp only [hE] at h
      exact ih acc2 res h

theorem bfsLoop_inl (m : SokobanMap) :
    ∀ (fuel : Nat) (visited : Visited) (current : List Key) (str : String),
    bfsLoop m fuel visited current = some (some str) →
    ∃ p dc, dc ∈ dirs ∧ str = p ++ dc.2 := by
  intro fuel
  induction fuel with
  | zero =>
    intro v c str h
    simp [bfsLoop] at h
  | succ fuel ih =>
    intro v c str h
    rw [bfsLoop_succ] at h
    by_cases hcur : c.isEmpty = true
    · rw [if_pos hcur] at h
      injection h with h
      cases h
    · rw [if_neg hcur] at h
      rcases hP : processLayer m (v, []) c with res | ⟨v2, nx2⟩
      · simp only [hP, Option.some.injEq] at h
        obtain ⟨p, dc, hdc, hres⟩ := processLayer_inl m c (v, []) res hP
        exact ⟨p, dc, hdc, h ▸ hres⟩
      · simp only [hP] at h
        exact ih v2 nx2 str h

/-- On a zero-box board the four direction blocks reduce to finding the first
legal player step: the first legal direction yields an immediate completion
(every successor is complete), and if none is legal the accumulator is
unchanged. -/
theorem expandDirs_zero (m : SokobanMap) (pl : Pt) :
    ∀ ds, (∀ dc ∈ ds, dc ∈ dirs) →
    expandDirs m (deserializeK ((pl, []) : Key)) "" ([(((pl, []) : Key), "")], []) ds =
      match ds.find? fun dc => legalStep m pl dc.1 with
      | some dc => Sum.inl dc.2
      | none => Sum.inr ([(((pl, []) : Key), "")], []) := by
  intro ds
  induction ds with
  | nil =>
    intro _
    rfl
  | cons dc ds ih =>
    intro hds
    have hdcd : dc ∈ dirs := hds dc (List.mem_cons_self dc ds)
    have hds2 : ∀ x ∈ ds, x ∈ dirs := fun x hx => hds x (List.mem_cons_of_mem dc hx)
    by_cases hleg : legalStep m pl dc.1 = true
    · have hns : nextState m (deserializeK ((pl, []) : Key)) dc.1 =
          some ⟨(pl.1 + dc.1.1, pl.2 + dc.1.2), [], []⟩ := by
        show nextState m (⟨pl, [], []⟩ : SokobanState) dc.1 = _
        rw [nextState_no_boxes, if_pos hleg]
      have hne : ¬(((pl, ([] : List Pt)) : Key) =
          ((pl.1 + dc.1.1, pl.2 + dc.1.2), ([] : List Pt))) := by
        fin_cases hdcd <;> simp [Prod.ext_iff]
      have hlk : lookupV [(((pl, []) : Key), "")]
          ((pl.1 + dc.1.1, pl.2 + dc.1.2), ([] : List Pt)) = none := by
        rw [lookupV_cons_ne hne]
        rfl
      have hfind : List.find? (fun x => legalStep m pl x.1) (dc :: ds) = some dc :=
        List.find?_cons_of_pos _ (by exact hleg)
      have hexp : expandDir m (deserializeK ((pl, []) : Key)) ""
          ([(((pl, []) : Key), "")], []) dc = Sum.inl ("" ++ dc.2) := by
        simp only [expandDir, hns, serializeK]
        rw [hlk]
        simp [isComplete]
      rw [expandDirs_cons, hexp, hfind]
      rfl
    · have hns : nextState m (deserializeK ((pl, []) : Key)) dc.1 = none := by
        show nextState m (⟨pl, [], []⟩ : SokobanState) dc.1 = _
        rw [nextState_no_boxes, if_neg hleg]
      have hfind : List.find? (fun x => legalStep m pl x.1) (dc :: ds) =
          List.find? (fun x => legalStep m pl x.1) ds :=
        List.find?_cons_of_neg _ (by exact hleg)
      have hexp : expandDir m (deserializeK ((pl, []) : Key)) ""
          ([(((pl, []) : Key), "")], []) dc =
          Sum.inr ([(((pl, []) : Key), "")], []) := by
        simp only [expandDir, hns]
      rw [expandDirs_cons, hexp]
      show expandDirs m (deserializeK ((pl, []) : Key)) "" ([(((pl, []) : Key), "")], []) ds =
        match (dc :: ds).find? fun x => legalStep m pl x.1 with
        | some x => Sum.inl x.2
        | none => Sum.inr ([(((pl, []) : Key), "")], [])
      rw [ih hds2, hfind]

/-- Claim C9: `solve` never tests the untouched initial state against the
completion predicate and never returns the empty string — every returned
string has length at least one, and on a zero-box board (where every successor
is complete) it returns the one-character code of the first legal player move
in the fixed W, A, S, D order rather than the empty path. -/
theorem c9_no_empty_path :
    (∀ (m : SokobanMap) (s : SokobanState) (str : String),
      solve m s = some str → 1 ≤ str.length) ∧
    (∀ (m : SokobanMap) (pl : Pt),
      solve m ⟨pl, [], []⟩ = firstLegalCode m pl) := by
  constructor
  · intro m s str h
    have hb : bfsLoop m (solveFuel m (serializeK s)) [(serializeK s, "")] [serializeK s]
        = some (some str) := by
      rcases hbb : bfsLoop m (solveFuel m (serializeK s)) [(serializeK s, "")]
          [serializeK s] with _ | r
      · simp only [solve, hbb, Option.getD_none] at h
        cases h
      · simp only [solve, hbb, Option.getD_some] at h
        rw [h]
    obtain ⟨p, dc, hdc, hres⟩ := bfsLoop_inl m _ _ _ str hb
    obtain ⟨c, _, _, hclen⟩ := dirs_code dc hdc
    rw [hres, String.length_append, hclen]
    omega
  · intro m pl
    show (bfsLoop m (solveFuel m ((pl, []) : Key)) [(((pl, []) : Key), "")]
      [((pl, []) : Key)]).getD none = firstLegalCode m pl
    obtain ⟨N, hN⟩ : ∃ N, solveFuel m ((pl, []) : Key) = N + 2 :=
      ⟨(keyUniv m ((pl, []) : Key)).card, rfl⟩
    rw [hN, bfsLoop_succ, if_neg (by simp)]
    rw [processLayer_cons]
    have hlk0 : lookupV [(((pl, []) : Key), "")] ((pl, []) : Key) = some "" :=
      lookupV_cons_self _ _
    rw [hlk0, Option.getD_some]
    rw [expandDirs_zero m pl dirs (fun _ h => h)]
    rcases hF : dirs.find? (fun dc => legalStep m pl dc.1) with _ | dc
    · rw [hF]
      show (bfsLoop m (N + 1) [(((pl, []) : Key), "")] []).getD none = firstLegalCode m pl
      rw [bfsLoop_succ, if_pos (show ([] : List Key).isEmpty = true from rfl)]
      simp [firstLegalCode, hF]
    · rw [hF]
      show (some (some dc.2)).getD none = firstLegalCode m pl
      simp [firstLegalCode, hF]

set_option maxRecDepth 4000 in
/-- Witness for C9: the one-step-solvable puzzle returns the length-1 string
`"D"`, and on the walled-in zero-box board `solve` agrees with the first legal
code (both `none`). -/
theorem c9_no_empty_path_witness :
    solve mSolv sSolv = some "D" ∧ 1 ≤ ("D" : String).length ∧
    solve mWalled ⟨(1, 1), [], []⟩ = firstLegalCode mWalled (1, 1) :=
  ⟨by decide, c9_no_empty_path.1 mSolv sSolv "D" (by decide),
    c9_no_empty_path.2 mWalled (1, 1)⟩

/-- Claim C1 (amended): for a parsed puzzle whose initial state is not already
complete, if some `nextState`-accepted move sequence reaches a complete state
then `solve` returns a string that replays from the initial state to a
complete state, and no strictly shorter accepted sequence reaches one.  The
amendment excludes an already-complete initial state, which `solve` never
tests. -/
theorem c1_solve_shortest (input : String) (m : SokobanMap) (s : SokobanState)
    (hp : parseSokoban input = some (m, s)) (hnc : isComplete m s = false)
    (hsol : ∃ cs t, replay m s cs = some t ∧ isComplete m t = true) :
    ∃ str, solve m s = some str ∧
      (∃ t, replay m s str.data = some t ∧ isComplete m t = true) ∧
      ∀ cs t, replay m s cs = some t → isComplete m t = true → str.length ≤ cs.length := by
  have hc : coherent s := parse_coherent input m s hp
  obtain ⟨S1, S2⟩ := solve_spec m s hc hnc
  rcases hs : solve m s with _ | str
  · obtain ⟨cs, t, hre, hcomp⟩ := hsol
    exact absurd hcomp (S2 hs cs t hre)
  · obtain ⟨hex, hmin⟩ := S1 str hs
    exact ⟨str, rfl, hex, hmin⟩

/-- Witness for the amended C1 on the trivial solvable puzzle: it parses, is
not initially complete, is solvable in one push, and `solve` returns a
shortest completing string. -/
theorem c1_solve_shortest_witness :
    parseSokoban "#####\n#wb+#\n#####" = some (mSolv, sSolv) ∧
    isComplete mSolv sSolv = false ∧
    ∃ str, solve mSolv sSolv = some str ∧
      (∃ t, replay mSolv sSolv str.data = some t ∧ isComplete mSolv t = true) ∧
      ∀ cs t, replay mSolv sSolv cs = some t → isComplete mSolv t = true →
        str.length ≤ cs.length :=
  ⟨by decide, by decide,
    c1_solve_shortest "#####\n#wb+#\n#####" mSolv sSolv (by decide) (by decide)
      ⟨['D'], ⟨(2, 1), [(3, 1)], [(3, 1)]⟩, by decide, by decide⟩⟩

/-- Claim C6 (amended): for a coherent initial state that is not already
complete, `solve` returns `none` exactly when no `nextState`-accepted move
sequence reaches a complete state — exhaustion of the reachable state space is
the only source of a `none` result.  The amendment excludes an
already-complete initial state, which `solve` never tests. -/
theorem c6_solve_none_iff (m : SokobanMap) (s : SokobanState)
    (hc : coherent s) (hnc : isComplete m s = false) :
    (solve m s = none ↔ ¬∃ cs t, replay m s cs = some t ∧ isComplete m t = true) := by
  obtain ⟨S1, S2⟩ := solve_spec m s hc hnc
  constructor
  · rintro hnone ⟨cs, t, hre, hcomp⟩
    exact S2 hnone cs t hre hcomp
  · intro hno
    rcases hs : solve m s with _ | str
    · rfl
    · obtain ⟨⟨t, hre, hcomp⟩, _⟩ := S1 str hs
      exact absurd ⟨str.data, t, hre, hcomp⟩ hno

/-- Witness for the amended C6 on the trivial solvable puzzle. -/
theorem c6_solve_none_iff_witness :
    isComplete mSolv sSolv = false ∧
    (solve mSolv sSolv = none ↔
      ¬∃ cs t, replay mSolv sSolv cs = some t ∧ isComplete mSolv t = true) :=
  ⟨by decide, c6_solve_none_iff mSolv sSolv (fun _ => Iff.rfl) (by decide)⟩

end Sokoban
